import Mathlib

/-!
Verification of the `sokoban_search` repository: a shallow embedding of
`src/sokoban_search/sokoban.py`, `heuristics.py` and `main.py` together with
theorems about the embedded definitions.

Coordinates are unbounded integers, as in Python.  Grids are lists of rows of
occupants; `cellAt g x y` reads `grid[y][x]`.  The Python code only reads or
writes cells after an explicit bounds check (`is_legal_pos` / `can_push_to`),
so total `getD`/`set` indexing with a default agrees with the source on every
access the code performs on a rectangular grid.
-/

/-- `Occupant` enumeration from sokoban.py (`EMPTY`, `BLOCK`, `WALL`).
The hero is stored separately, never as a grid cell. -/
inductive Occupant where
  | EMPTY
  | BLOCK
  | WALL
deriving DecidableEq, Repr

/-- `Direction` enumeration from sokoban.py; iteration order of the Python
enum is its definition order `UP, DOWN, LEFT, RIGHT`. -/
inductive Direction where
  | UP
  | DOWN
  | LEFT
  | RIGHT
deriving DecidableEq, Repr

/-- The `(dx, dy)` displacement attached to each `Direction` member. -/
def Direction.value : Direction → Int × Int
  | .UP => (0, -1)
  | .DOWN => (0, 1)
  | .LEFT => (-1, 0)
  | .RIGHT => (1, 0)

/-- `Position = Tuple[int, int]` (x, y coordinates). -/
abbrev Position := Int × Int

/-- The `SokobanState` dataclass: a grid of occupants plus the hero position.
Dataclass equality in Python is field-by-field value equality, which is the
derived structural equality here. -/
structure SokobanState where
  grid : List (List Occupant)
  hero : Position
deriving DecidableEq, Repr

/-- Read `grid[y][x]` (total, defaulting out-of-range reads to `EMPTY`;
the source only reads cells it has bounds-checked). -/
def cellAt (g : List (List Occupant)) (x y : Int) : Occupant :=
  (g.getD y.toNat []).getD x.toNat Occupant.EMPTY

/-- Write `grid[y][x] = v` (total; out-of-range writes are dropped, the
source only writes cells it has bounds-checked). -/
def setCell (g : List (List Occupant)) (x y : Int) (v : Occupant) :
    List (List Occupant) :=
  g.set y.toNat ((g.getD y.toNat []).set x.toNat v)

/-- `SokobanState.is_legal_pos`: `0 <= x < len(grid[0]) and 0 <= y < len(grid)`. -/
def SokobanState.is_legal_pos (s : SokobanState) (x y : Int) : Bool :=
  decide (0 ≤ x) && decide (x < ((s.grid.headD []).length : Int)) &&
    decide (0 ≤ y) && decide (y < (s.grid.length : Int))

/-- `SokobanState.can_push_to`: legal position whose cell is `EMPTY`. -/
def SokobanState.can_push_to (s : SokobanState) (x y : Int) : Bool :=
  s.is_legal_pos x y && decide (cellAt s.grid x y = Occupant.EMPTY)

/-- `SokobanState.move`: the Python method deep-copies the state and then
either relocates the hero (empty candidate cell), pushes a box (candidate is a
box and the cell behind it is pushable), or leaves the copy untouched.  The
copy is value-equal to the receiver, so the no-op branches return `s`. -/
def SokobanState.move (s : SokobanState) (d : Direction) : SokobanState :=
  let nx := s.hero.1 + d.value.1
  let ny := s.hero.2 + d.value.2
  if s.is_legal_pos nx ny then
    match cellAt s.grid nx ny with
    | Occupant.EMPTY => { s with hero := (nx, ny) }
    | Occupant.BLOCK =>
        let px := nx + d.value.1
        let py := ny + d.value.2
        if s.can_push_to px py then
          { grid := setCell (setCell s.grid px py Occupant.BLOCK) nx ny Occupant.EMPTY,
            hero := (nx, ny) }
        else s
    | Occupant.WALL => s
  else s

/-- A grid is rectangular when every row has the width of row 0
(`is_legal_pos` measures width on `grid[0]`). -/
def Rect (g : List (List Occupant)) : Prop :=
  ∀ row ∈ g, row.length = (g.headD []).length

instance (g : List (List Occupant)) : Decidable (Rect g) := by
  unfold Rect; infer_instance

/-- Number of `BLOCK` cells in a grid (the measure used by the box-conservation
invariant). -/
def countBoxes (g : List (List Occupant)) : Nat :=
  (g.map (fun row => row.count Occupant.BLOCK)).sum

-- ### Basic list-update lemmas used by the `move` theorems

theorem getD_set_eq {α : Type} (l : List α) (i : Nat) (v d : α)
    (h : i < l.length) : (l.set i v).getD i d = v := by
  induction l generalizing i with
  | nil => simp at h
  | cons a t ih =>
    cases i with
    | zero => rfl
    | succ j => simpa [List.getD] using ih j (by simpa using h)

theorem getD_set_ne {α : Type} (l : List α) (i j : Nat) (v d : α)
    (h : i ≠ j) : (l.set i v).getD j d = l.getD j d := by
  induction l generalizing i j with
  | nil => simp [List.set]
  | cons a t ih =>
    cases i with
    | zero =>
      cases j with
      | zero => exact absurd rfl h
      | succ k => rfl
    | succ i' =>
      cases j with
      | zero => rfl
      | succ k => simpa [List.getD] using ih i' k (by omega)

theorem cellAt_setCell_eq (g : List (List Occupant)) (x y : Int) (v : Occupant)
    (hy : y.toNat < g.length) (hx : x.toNat < (g.getD y.toNat []).length) :
    cellAt (setCell g x y v) x y = v := by
  unfold cellAt setCell
  rw [getD_set_eq _ _ _ _ (by simpa using hy)]
  exact getD_set_eq _ _ _ _ hx

theorem cellAt_setCell_ne (g : List (List Occupant)) (x y a b : Int)
    (v : Occupant) (h : a.toNat ≠ x.toNat ∨ b.toNat ≠ y.toNat) :
    cellAt (setCell g x y v) a b = cellAt g a b := by
  unfold cellAt setCell
  rcases h with h | h
  · by_cases hb : b.toNat = y.toNat
    · rw [hb]
      by_cases hy : y.toNat < g.length
      · rw [getD_set_eq _ _ _ _ (by simpa using hy)]
        exact getD_set_ne _ _ _ _ _ (fun hxx => h hxx.symm)
      · rw [List.set_eq_of_length_le (by omega)]
    · rw [getD_set_ne _ _ _ _ _ (fun hyy => hb hyy.symm)]
  · rw [getD_set_ne _ _ _ _ _ (fun hyy => h hyy.symm)]

theorem length_setCell (g : List (List Occupant)) (x y : Int) (v : Occupant) :
    (setCell g x y v).length = g.length := by
  simp [setCell]

theorem row_length_setCell (g : List (List Occupant)) (x y : Int)
    (v : Occupant) (i : Nat) :
    ((setCell g x y v).getD i []).length = (g.getD i []).length := by
  unfold setCell
  by_cases hiy : y.toNat = i
  · subst hiy
    by_cases hy : y.toNat < g.length
    · rw [getD_set_eq _ _ _ _ (by simpa using hy)]; simp
    · rw [List.set_eq_of_length_le (by omega)]
  · rw [getD_set_ne _ _ _ _ _ hiy]

theorem count_set_add {α : Type} [DecidableEq α] (l : List α) (i : Nat)
    (v a d : α) (h : i < l.length) :
    (l.set i v).count a + (if l.getD i d = a then 1 else 0) =
      l.count a + (if v = a then 1 else 0) := by
  induction l generalizing i with
  | nil => simp at h
  | cons b t ih =>
    cases i with
    | zero =>
      simp only [List.set, List.getD, List.count_cons]
      by_cases hv : v = a <;> by_cases hb : b = a <;>
        simp [hv, hb, beq_iff_eq]
    | succ j =>
      have := ih j (by simpa using h)
      simp only [List.set, List.getD_cons_succ, List.count_cons] at *
      by_cases hb : b = a <;> simp [hb, beq_iff_eq] at * <;> omega

theorem sum_map_set {α : Type} (g : List α) (f : α → Nat) (i : Nat) (r d : α)
    (h : i < g.length) :
    ((g.set i r).map f).sum + f (g.getD i d) = (g.map f).sum + f r := by
  induction g generalizing i with
  | nil => simp at h
  | cons b t ih =>
    cases i with
    | zero => simp [List.set, List.getD_cons_zero]; omega
    | succ j =>
      have := ih j (by simpa using h)
      simp only [List.set, List.getD_cons_succ, List.map, List.sum_cons] at *
      omega

theorem countBoxes_setCell (g : List (List Occupant)) (x y : Int) (v : Occupant)
    (hy : y.toNat < g.length) (hx : x.toNat < (g.getD y.toNat []).length) :
    countBoxes (setCell g x y v) + (if cellAt g x y = Occupant.BLOCK then 1 else 0) =
      countBoxes g + (if v = Occupant.BLOCK then 1 else 0) := by
  unfold countBoxes setCell cellAt
  have hrow := count_set_add (g.getD y.toNat []) x.toNat v Occupant.BLOCK
    Occupant.EMPTY hx
  have hsum := sum_map_set g (fun row => row.count Occupant.BLOCK) y.toNat
    ((g.getD y.toNat []).set x.toNat v) [] hy
  simp only at hsum
  omega

-- ### Case-analysis lemmas for `SokobanState.move`

theorem is_legal_pos_iff (s : SokobanState) (x y : Int) :
    s.is_legal_pos x y = true ↔
      0 ≤ x ∧ x < ((s.grid.headD []).length : Int) ∧
        0 ≤ y ∧ y < (s.grid.length : Int) := by
  simp [SokobanState.is_legal_pos, and_assoc]

theorem move_of_illegal (s : SokobanState) (d : Direction)
    (h : s.is_legal_pos (s.hero.1 + d.value.1) (s.hero.2 + d.value.2) = false) :
    s.move d = s := by
  unfold SokobanState.move
  simp [h]

theorem move_of_wall (s : SokobanState) (d : Direction)
    (h : s.is_legal_pos (s.hero.1 + d.value.1) (s.hero.2 + d.value.2) = true)
    (hc : cellAt s.grid (s.hero.1 + d.value.1) (s.hero.2 + d.value.2) =
      Occupant.WALL) : s.move d = s := by
  unfold SokobanState.move
  simp [h, hc]

theorem move_of_empty (s : SokobanState) (d : Direction)
    (h : s.is_legal_pos (s.hero.1 + d.value.1) (s.hero.2 + d.value.2) = true)
    (hc : cellAt s.grid (s.hero.1 + d.value.1) (s.hero.2 + d.value.2) =
      Occupant.EMPTY) :
    s.move d = { s with hero := (s.hero.1 + d.value.1, s.hero.2 + d.value.2) } := by
  unfold SokobanState.move
  simp [h, hc]

theorem move_of_block_nopush (s : SokobanState) (d : Direction)
    (h : s.is_legal_pos (s.hero.1 + d.value.1) (s.hero.2 + d.value.2) = true)
    (hc : cellAt s.grid (s.hero.1 + d.value.1) (s.hero.2 + d.value.2) =
      Occupant.BLOCK)
    (hp : s.can_push_to (s.hero.1 + 2 * d.value.1) (s.hero.2 + 2 * d.value.2) =
      false) : s.move d = s := by
  unfold SokobanState.move
  have h2x : s.hero.1 + d.value.1 + d.value.1 = s.hero.1 + 2 * d.value.1 := by ring
  have h2y : s.hero.2 + d.value.2 + d.value.2 = s.hero.2 + 2 * d.value.2 := by ring
  simp [h, hc, h2x, h2y, hp]

theorem move_of_block_push (s : SokobanState) (d : Direction)
    (h : s.is_legal_pos (s.hero.1 + d.value.1) (s.hero.2 + d.value.2) = true)
    (hc : cellAt s.grid (s.hero.1 + d.value.1) (s.hero.2 + d.value.2) =
      Occupant.BLOCK)
    (hp : s.can_push_to (s.hero.1 + 2 * d.value.1) (s.hero.2 + 2 * d.value.2) =
      true) :
    s.move d =
      { grid := setCell
          (setCell s.grid (s.hero.1 + 2 * d.value.1) (s.hero.2 + 2 * d.value.2)
            Occupant.BLOCK)
          (s.hero.1 + d.value.1) (s.hero.2 + d.value.2) Occupant.EMPTY,
        hero := (s.hero.1 + d.value.1, s.hero.2 + d.value.2) } := by
  unfold SokobanState.move
  have h2x : s.hero.1 + d.value.1 + d.value.1 = s.hero.1 + 2 * d.value.1 := by ring
  have h2y : s.hero.2 + d.value.2 + d.value.2 = s.hero.2 + 2 * d.value.2 := by ring
  simp [h, hc, h2x, h2y, hp]

theorem direction_value_ne_zero (d : Direction) :
    d.value.1 ≠ 0 ∨ d.value.2 ≠ 0 := by
  cases d <;> simp [Direction.value]

theorem can_push_to_iff (s : SokobanState) (x y : Int) :
    s.can_push_to x y = true ↔
      s.is_legal_pos x y = true ∧ cellAt s.grid x y = Occupant.EMPTY := by
  simp [SokobanState.can_push_to]

theorem cellAt_congr (g : List (List Occupant)) (x y a b : Int)
    (hx : x.toNat = a.toNat) (hy : y.toNat = b.toNat) :
    cellAt g x y = cellAt g a b := by
  unfold cellAt
  rw [hx, hy]

theorem legal_bounds (s : SokobanState) (x y : Int) (hrect : Rect s.grid)
    (h : s.is_legal_pos x y = true) :
    y.toNat < s.grid.length ∧ x.toNat < (s.grid.getD y.toNat []).length ∧
      0 ≤ x ∧ 0 ≤ y := by
  obtain ⟨hx0, hxw, hy0, hyh⟩ := (is_legal_pos_iff s x y).mp h
  have hy : y.toNat < s.grid.length := by omega
  have hmem : s.grid.getD y.toNat [] ∈ s.grid := by
    rw [List.getD_eq_getElem s.grid [] hy]
    exact List.getElem_mem hy
  have hw := hrect _ hmem
  exact ⟨hy, by omega, hx0, hy0⟩

/-- C1: `move` performs exactly one of three outcomes: a no-op (candidate cell
out of bounds, a wall, or an unpushable box), a hero relocation onto an empty
candidate cell with the grid unchanged, or a box push that puts a box on the
next cell, empties the candidate cell, and puts the hero on the candidate
cell. -/
theorem move_trichotomy (s : SokobanState) (d : Direction)
    (hrect : Rect s.grid) :
    ((s.is_legal_pos (s.hero.1 + d.value.1) (s.hero.2 + d.value.2) = false ∨
        cellAt s.grid (s.hero.1 + d.value.1) (s.hero.2 + d.value.2) = Occupant.WALL ∨
        (cellAt s.grid (s.hero.1 + d.value.1) (s.hero.2 + d.value.2) = Occupant.BLOCK ∧
          s.can_push_to (s.hero.1 + 2 * d.value.1) (s.hero.2 + 2 * d.value.2) = false)) ∨
      (s.is_legal_pos (s.hero.1 + d.value.1) (s.hero.2 + d.value.2) = true ∧
        cellAt s.grid (s.hero.1 + d.value.1) (s.hero.2 + d.value.2) = Occupant.EMPTY) ∨
      (s.is_legal_pos (s.hero.1 + d.value.1) (s.hero.2 + d.value.2) = true ∧
        cellAt s.grid (s.hero.1 + d.value.1) (s.hero.2 + d.value.2) = Occupant.BLOCK ∧
        s.can_push_to (s.hero.1 + 2 * d.value.1) (s.hero.2 + 2 * d.value.2) = true)) ∧
    ((s.is_legal_pos (s.hero.1 + d.value.1) (s.hero.2 + d.value.2) = false ∨
        cellAt s.grid (s.hero.1 + d.value.1) (s.hero.2 + d.value.2) = Occupant.WALL ∨
        (cellAt s.grid (s.hero.1 + d.value.1) (s.hero.2 + d.value.2) = Occupant.BLOCK ∧
          s.can_push_to (s.hero.1 + 2 * d.value.1) (s.hero.2 + 2 * d.value.2) = false)) →
      s.move d = s) ∧
    ((s.is_legal_pos (s.hero.1 + d.value.1) (s.hero.2 + d.value.2) = true ∧
        cellAt s.grid (s.hero.1 + d.value.1) (s.hero.2 + d.value.2) = Occupant.EMPTY) →
      s.move d = { s with hero := (s.hero.1 + d.value.1, s.hero.2 + d.value.2) }) ∧
    ((s.is_legal_pos (s.hero.1 + d.value.1) (s.hero.2 + d.value.2) = true ∧
        cellAt s.grid (s.hero.1 + d.value.1) (s.hero.2 + d.value.2) = Occupant.BLOCK ∧
        s.can_push_to (s.hero.1 + 2 * d.value.1) (s.hero.2 + 2 * d.value.2) = true) →
      cellAt (s.move d).grid (s.hero.1 + 2 * d.value.1) (s.hero.2 + 2 * d.value.2) =
          Occupant.BLOCK ∧
        cellAt (s.move d).grid (s.hero.1 + d.value.1) (s.hero.2 + d.value.2) =
          Occupant.EMPTY ∧
        (s.move d).hero = (s.hero.1 + d.value.1, s.hero.2 + d.value.2)) := by
  refine ⟨?_, ?_, ?_, ?_⟩
  · by_cases hleg : s.is_legal_pos (s.hero.1 + d.value.1) (s.hero.2 + d.value.2) = true
    · cases hc : cellAt s.grid (s.hero.1 + d.value.1) (s.hero.2 + d.value.2) with
      | EMPTY => exact Or.inr (Or.inl ⟨hleg, rfl⟩)
      | WALL => exact Or.inl (Or.inr (Or.inl rfl))
      | BLOCK =>
        by_cases hp : s.can_push_to (s.hero.1 + 2 * d.value.1)
            (s.hero.2 + 2 * d.value.2) = true
        · exact Or.inr (Or.inr ⟨hleg, rfl, hp⟩)
        · exact Or.inl (Or.inr (Or.inr ⟨rfl, by simpa using hp⟩))
    · exact Or.inl (Or.inl (by simpa using hleg))
  · rintro (h | h | ⟨h1, h2⟩)
    · exact move_of_illegal s d h
    · by_cases hleg : s.is_legal_pos (s.hero.1 + d.value.1) (s.hero.2 + d.value.2) = true
      · exact move_of_wall s d hleg h
      · exact move_of_illegal s d (by simpa using hleg)
    · by_cases hleg : s.is_legal_pos (s.hero.1 + d.value.1) (s.hero.2 + d.value.2) = true
      · exact move_of_block_nopush s d hleg h1 h2
      · exact move_of_illegal s d (by simpa using hleg)
  · rintro ⟨h1, h2⟩
    exact move_of_empty s d h1 h2
  · rintro ⟨hleg, hc, hp⟩
    rw [move_of_block_push s d hleg hc hp]
    obtain ⟨hny, hnx, hnx0, hny0⟩ := legal_bounds s _ _ hrect hleg
    obtain ⟨hpleg, hpcell⟩ := (can_push_to_iff s _ _).mp hp
    obtain ⟨hpy, hpx, hpx0, hpy0⟩ := legal_bounds s _ _ hrect hpleg
    have hne : (s.hero.1 + 2 * d.value.1).toNat ≠ (s.hero.1 + d.value.1).toNat ∨
        (s.hero.2 + 2 * d.value.2).toNat ≠ (s.hero.2 + d.value.2).toNat := by
      rcases direction_value_ne_zero d with h | h
      · left; omega
      · right; omega
    refine ⟨?_, ?_, rfl⟩
    · rw [cellAt_setCell_ne _ _ _ _ _ _ hne]
      exact cellAt_setCell_eq s.grid _ _ _ hpy hpx
    · exact cellAt_setCell_eq _ _ _ _ (by simpa [length_setCell] using hny)
        (by rw [row_length_setCell]; exact hnx)

/-- C1 witness: a concrete rectangular state in which the move pushes a box. -/
theorem move_trichotomy_witness :
    Rect ([[Occupant.EMPTY, Occupant.BLOCK, Occupant.EMPTY]] :
        List (List Occupant)) ∧
      (SokobanState.mk [[Occupant.EMPTY, Occupant.BLOCK, Occupant.EMPTY]]
          ((0 : Int), (0 : Int))).move Direction.RIGHT =
        SokobanState.mk [[Occupant.EMPTY, Occupant.EMPTY, Occupant.BLOCK]]
          ((1 : Int), (0 : Int)) := by
  refine ⟨by decide, ?_⟩
  have h := (move_trichotomy
    (SokobanState.mk [[Occupant.EMPTY, Occupant.BLOCK, Occupant.EMPTY]]
      ((0 : Int), (0 : Int))) Direction.RIGHT (by decide)).2.2.2
    ⟨by decide, by decide, by decide⟩
  rcases h with ⟨h1, h2, h3⟩
  decide

/-- C10: `move` preserves the row count, each row length, every wall cell, and
the total number of boxes. -/
theorem move_preserves_grid (s : SokobanState) (d : Direction)
    (hrect : Rect s.grid) :
    (s.move d).grid.length = s.grid.length ∧
    (∀ i : Nat, ((s.move d).grid.getD i []).length = (s.grid.getD i []).length) ∧
    (∀ x y : Int, cellAt s.grid x y = Occupant.WALL →
      cellAt (s.move d).grid x y = Occupant.WALL) ∧
    countBoxes (s.move d).grid = countBoxes s.grid := by
  by_cases hleg : s.is_legal_pos (s.hero.1 + d.value.1) (s.hero.2 + d.value.2) = true
  · cases hc : cellAt s.grid (s.hero.1 + d.value.1) (s.hero.2 + d.value.2) with
    | EMPTY =>
      rw [move_of_empty s d hleg hc]
      exact ⟨rfl, fun _ => rfl, fun _ _ h => h, rfl⟩
    | WALL =>
      rw [move_of_wall s d hleg hc]
      exact ⟨rfl, fun _ => rfl, fun _ _ h => h, rfl⟩
    | BLOCK =>
      by_cases hp : s.can_push_to (s.hero.1 + 2 * d.value.1)
          (s.hero.2 + 2 * d.value.2) = true
      · rw [move_of_block_push s d hleg hc hp]
        obtain ⟨hny, hnx, hnx0, hny0⟩ := legal_bounds s _ _ hrect hleg
        obtain ⟨hpleg, hpcell⟩ := (can_push_to_iff s _ _).mp hp
        obtain ⟨hpy, hpx, hpx0, hpy0⟩ := legal_bounds s _ _ hrect hpleg
        have hnp : (s.hero.1 + d.value.1).toNat ≠ (s.hero.1 + 2 * d.value.1).toNat ∨
            (s.hero.2 + d.value.2).toNat ≠ (s.hero.2 + 2 * d.value.2).toNat := by
          rcases direction_value_ne_zero d with h | h
          · left; omega
          · right; omega
        refine ⟨?_, ?_, ?_, ?_⟩
        · rw [length_setCell, length_setCell]
        · intro i
          rw [row_length_setCell, row_length_setCell]
        · intro x y hw
          have hxn : x.toNat ≠ (s.hero.1 + d.value.1).toNat ∨
              y.toNat ≠ (s.hero.2 + d.value.2).toNat := by
            by_contra hcon
            push_neg at hcon
            rw [cellAt_congr s.grid x y _ _ hcon.1 hcon.2, hc] at hw
            exact Occupant.noConfusion hw
          have hxp : x.toNat ≠ (s.hero.1 + 2 * d.value.1).toNat ∨
              y.toNat ≠ (s.hero.2 + 2 * d.value.2).toNat := by
            by_contra hcon
            push_neg at hcon
            rw [cellAt_congr s.grid x y _ _ hcon.1 hcon.2, hpcell] at hw
            exact Occupant.noConfusion hw
          rw [cellAt_setCell_ne _ _ _ _ _ _ hxn, cellAt_setCell_ne _ _ _ _ _ _ hxp]
          exact hw
        · have h1 := countBoxes_setCell s.grid (s.hero.1 + 2 * d.value.1)
            (s.hero.2 + 2 * d.value.2) Occupant.BLOCK hpy hpx
          rw [hpcell] at h1
          have hg1y : (s.hero.2 + d.value.2).toNat <
              (setCell s.grid (s.hero.1 + 2 * d.value.1)
                (s.hero.2 + 2 * d.value.2) Occupant.BLOCK).length := by
            rw [length_setCell]; exact hny
          have hg1x : (s.hero.1 + d.value.1).toNat <
              ((setCell s.grid (s.hero.1 + 2 * d.value.1)
                  (s.hero.2 + 2 * d.value.2) Occupant.BLOCK).getD
                (s.hero.2 + d.value.2).toNat []).length := by
            rw [row_length_setCell]; exact hnx
          have h2 := countBoxes_setCell
            (setCell s.grid (s.hero.1 + 2 * d.value.1) (s.hero.2 + 2 * d.value.2)
              Occupant.BLOCK)
            (s.hero.1 + d.value.1) (s.hero.2 + d.value.2) Occupant.EMPTY hg1y hg1x
          rw [cellAt_setCell_ne _ _ _ _ _ _ hnp, hc] at h2
          simp at h1 h2
          dsimp only
          omega
      · rw [move_of_block_nopush s d hleg hc (by simpa using hp)]
        exact ⟨rfl, fun _ => rfl, fun _ _ h => h, rfl⟩
  · rw [move_of_illegal s d (by simpa using hleg)]
    exact ⟨rfl, fun _ => rfl, fun _ _ h => h, rfl⟩

/-- C10 witness: the invariants evaluated on a concrete box-pushing move. -/
theorem move_preserves_grid_witness :
    countBoxes ((SokobanState.mk
        [[Occupant.WALL, Occupant.EMPTY, Occupant.BLOCK, Occupant.EMPTY]]
        ((1 : Int), (0 : Int))).move Direction.RIGHT).grid =
      countBoxes [[Occupant.WALL, Occupant.EMPTY, Occupant.BLOCK, Occupant.EMPTY]] ∧
    cellAt ((SokobanState.mk
        [[Occupant.WALL, Occupant.EMPTY, Occupant.BLOCK, Occupant.EMPTY]]
        ((1 : Int), (0 : Int))).move Direction.RIGHT).grid 0 0 = Occupant.WALL := by
  have h := move_preserves_grid
    (SokobanState.mk [[Occupant.WALL, Occupant.EMPTY, Occupant.BLOCK, Occupant.EMPTY]]
      ((1 : Int), (0 : Int))) Direction.RIGHT (by decide)
  exact ⟨h.2.2.2, h.2.2.1 0 0 (by decide)⟩

-- ### Move generation (`Sokoban.move_gen`)

/-- Iteration order of `for dir in Direction`: Python enums iterate in
definition order `UP, DOWN, LEFT, RIGHT`. -/
def directions : List Direction :=
  [Direction.UP, Direction.DOWN, Direction.LEFT, Direction.RIGHT]

/-- Loop body of `Sokoban.move_gen`: append `state.move(dir)` unless it is
value-equal to an already collected state or to the input state. -/
def moveGenAux (state : SokobanState) :
    List Direction → List SokobanState → List SokobanState
  | [], acc => acc
  | d :: rest, acc =>
      let ns := state.move d
      if ns ∈ acc ∨ ns = state then moveGenAux state rest acc
      else moveGenAux state rest (acc ++ [ns])

/-- `Sokoban.move_gen`: all neighbours of `state`, deduplicated by value and
excluding `state` itself (the Python method reads only its `state` argument,
not `self`). -/
def move_gen (state : SokobanState) : List SokobanState :=
  moveGenAux state directions []

theorem moveGenAux_spec (s : SokobanState) :
    ∀ (dirs : List Direction) (acc : List SokobanState), acc.Nodup → s ∉ acc →
      (moveGenAux s dirs acc).Nodup ∧ s ∉ moveGenAux s dirs acc ∧
        ∃ t, moveGenAux s dirs acc = acc ++ t ∧ t.Sublist (dirs.map s.move) := by
  intro dirs
  induction dirs with
  | nil =>
    intro acc h1 h2
    simp only [moveGenAux]
    exact ⟨h1, h2, [], by simp, by simp⟩
  | cons d rest ih =>
    intro acc h1 h2
    by_cases hif : s.move d ∈ acc ∨ s.move d = s
    · have heq : moveGenAux s (d :: rest) acc = moveGenAux s rest acc := by
        simp only [moveGenAux, if_pos hif]
      obtain ⟨n1, n2, t, ht, hsub⟩ := ih acc h1 h2
      rw [heq]
      refine ⟨n1, n2, t, ht, ?_⟩
      have : List.map s.move (d :: rest) = s.move d :: List.map s.move rest := rfl
      rw [this]
      exact hsub.trans (List.sublist_cons_self _ _)
    · have heq : moveGenAux s (d :: rest) acc =
          moveGenAux s rest (acc ++ [s.move d]) := by
        simp only [moveGenAux, if_neg hif]
      push_neg at hif
      have hacc : (acc ++ [s.move d]).Nodup := by
        simp [List.nodup_append, h1, hif.1]
      have hs : s ∉ acc ++ [s.move d] := by
        intro hmem
        rcases List.mem_append.mp hmem with h | h
        · exact h2 h
        · exact hif.2 (List.mem_singleton.mp h).symm
      obtain ⟨n1, n2, t, ht, hsub⟩ := ih (acc ++ [s.move d]) hacc hs
      rw [heq]
      refine ⟨n1, n2, s.move d :: t, ?_, ?_⟩
      · rw [ht]
        simp
      · have : List.map s.move (d :: rest) = s.move d :: List.map s.move rest := rfl
        rw [this]
        exact List.Sublist.cons₂ _ hsub

/-- C2: `move_gen` contains no duplicate values, never contains the input
state, and lists its results in the fixed direction order
Up, Down, Left, Right. -/
theorem move_gen_spec (s : SokobanState) :
    (move_gen s).Nodup ∧ s ∉ move_gen s ∧
      (move_gen s).Sublist
        [s.move Direction.UP, s.move Direction.DOWN,
          s.move Direction.LEFT, s.move Direction.RIGHT] := by
  obtain ⟨n1, n2, t, ht, hsub⟩ :=
    moveGenAux_spec s directions [] List.nodup_nil (List.not_mem_nil s)
  refine ⟨n1, n2, ?_⟩
  have : move_gen s = t := by simpa [move_gen] using ht
  rw [this]
  exact hsub

theorem mem_move_gen_exists (s : SokobanState) :
    ∀ (dirs : List Direction) (acc : List SokobanState) (v : SokobanState),
      v ∈ moveGenAux s dirs acc → v ∈ acc ∨ ∃ d ∈ dirs, s.move d = v := by
  intro dirs
  induction dirs with
  | nil => intro acc v hv; exact Or.inl hv
  | cons d rest ih =>
    intro acc v hv
    by_cases hif : s.move d ∈ acc ∨ s.move d = s
    · simp only [moveGenAux, if_pos hif] at hv
      rcases ih acc v hv with h | ⟨e, he, hev⟩
      · exact Or.inl h
      · exact Or.inr ⟨e, List.mem_cons_of_mem _ he, hev⟩
    · simp only [moveGenAux, if_neg hif] at hv
      rcases ih _ v hv with h | ⟨e, he, hev⟩
      · rcases List.mem_append.mp h with h | h
        · exact Or.inl h
        · exact Or.inr ⟨d, List.mem_cons_self _ _, (List.mem_singleton.mp h).symm⟩
      · exact Or.inr ⟨e, List.mem_cons_of_mem _ he, hev⟩

/-- Soundness of `move_gen`: every generated state is the result of a move. -/
theorem move_gen_sound (s v : SokobanState) (hv : v ∈ move_gen s) :
    ∃ d, s.move d = v := by
  rcases mem_move_gen_exists s directions [] v hv with h | ⟨e, _, hev⟩
  · simp at h
  · exact ⟨e, hev⟩

theorem moveGenAux_mono (s : SokobanState) :
    ∀ (dirs : List Direction) (acc : List SokobanState) (v : SokobanState),
      v ∈ acc → v ∈ moveGenAux s dirs acc := by
  intro dirs
  induction dirs with
  | nil => intro acc v hv; exact hv
  | cons d rest ih =>
    intro acc v hv
    by_cases hif : s.move d ∈ acc ∨ s.move d = s
    · simp only [moveGenAux, if_pos hif]
      exact ih acc v hv
    · simp only [moveGenAux, if_neg hif]
      exact ih _ v (List.mem_append_left _ hv)

/-- Completeness of `move_gen`: every move that changes the state is listed. -/
theorem move_gen_complete (s : SokobanState) (d : Direction)
    (h : s.move d ≠ s) : s.move d ∈ move_gen s := by
  have main : ∀ (dirs : List Direction) (acc : List SokobanState),
      d ∈ dirs → s.move d ∈ moveGenAux s dirs acc := by
    intro dirs
    induction dirs with
    | nil => intro acc hd; simp at hd
    | cons e rest ih =>
      intro acc hd
      by_cases hif : s.move e ∈ acc ∨ s.move e = s
      · simp only [moveGenAux, if_pos hif]
        rcases List.mem_cons.mp hd with hd | hd
        · subst hd
          rcases hif with hmem | heq
          · exact moveGenAux_mono s rest acc _ hmem
          · exact absurd heq h
        · exact ih acc hd
      · simp only [moveGenAux, if_neg hif]
        rcases List.mem_cons.mp hd with hd | hd
        · subst hd
          exact moveGenAux_mono s rest _ _ (by simp)
        · exact ih _ hd
  exact main directions [] (by cases d <;> simp [directions])

-- ### Search engine (`Sokoban` class)

/-- `StatePair = Tuple[SokobanState, SokobanState | None]`: a (child, parent)
node pair. -/
abbrev StatePair := SokobanState × Option SokobanState

/-- The states (first components) of a list of node pairs. -/
def statesOf (l : List StatePair) : List SokobanState := l.map Prod.fst

/-- The `Sokoban` class fields: the current state and the goal list.  The
rendering / interactive-play methods are I/O only and are not modelled. -/
structure Sokoban where
  state : SokobanState
  goals : List Position
deriving DecidableEq, Repr

/-- `Sokoban.goal_test`: every goal coordinate `(x, y)` holds a `BLOCK`. -/
def Sokoban.goal_test (p : Sokoban) (s : SokobanState) : Bool :=
  p.goals.all (fun g => decide (cellAt s.grid g.1 g.2 = Occupant.BLOCK))

/-- `Sokoban.occurs_in`: whether some pair in `lst` has `node` as its state. -/
def occurs_in (lst : List StatePair) (node : SokobanState) : Bool :=
  lst.any (fun pr => decide (pr.1 = node))

/-- `Sokoban.remove_seen`: keep the children that occur neither in the open
list nor in the closed list. -/
def remove_seen (node_list : List SokobanState) (opn closed : List StatePair) :
    List SokobanState :=
  node_list.filter (fun node => !(occurs_in opn node || occurs_in closed node))

/-- `Sokoban.make_pairs`: attach `node` as the parent of every child. -/
def make_pairs (node_list : List SokobanState) (node : SokobanState) :
    List StatePair :=
  node_list.map (fun n => (n, some node))

/-- `Sokoban.find_link`: first pair in `closed` whose state equals `node`;
on a miss the Python code silently returns `(node, None)` (commented
`# unreachable`). -/
def find_link (node : SokobanState) (closed : List StatePair) : StatePair :=
  match closed with
  | [] => (node, none)
  | pr :: rest => if pr.1 = node then pr else find_link node rest

/-- The `while parent is not None` loop of `Sokoban.reconstruct_path`,
fuel-indexed.  Under the search invariant each parent lookup lands strictly
earlier in `closed`, so `closed.length + 1` iterations are never exhausted
and the fuel-out branch is unreachable. -/
def reconstructAux :
    Nat → Option SokobanState → List StatePair → List SokobanState →
      List SokobanState
  | _, none, _, path => path
  | 0, some _, _, path => path
  | fuel + 1, some parent, closed, path =>
      reconstructAux fuel (find_link parent closed).2 closed (path ++ [parent])

/-- `Sokoban.reconstruct_path`: start from `[node]`, append ancestors found by
`find_link`, then reverse into start-to-goal order. -/
def reconstruct_path (node_pair : StatePair) (closed : List StatePair) :
    List SokobanState :=
  (reconstructAux (closed.length + 1) node_pair.2 closed [node_pair.1]).reverse

/-- `Sokoban.bfs`, fuel-indexed (the Python `while open` loop; the per-level
`for` loop over `range(len(open))` pops the deque left-to-right and appends
children on the right, i.e. plain FIFO order; the `print` of depth
information is I/O only).  The final closed list is returned alongside the
path so that theorems can speak about the expanded nodes; `none` means the
fuel ran out before the loop terminated. -/
def Sokoban.bfsAux (p : Sokoban) :
    Nat → List StatePair → List StatePair →
      Option (List SokobanState × List StatePair)
  | 0, _, _ => none
  | _ + 1, [], closed => some ([], closed)
  | fuel + 1, pr :: rest, closed =>
      if p.goal_test pr.1 then some (reconstruct_path pr closed, closed)
      else p.bfsAux fuel
        (rest ++ make_pairs (remove_seen (move_gen pr.1) rest (closed ++ [pr])) pr.1)
        (closed ++ [pr])

/-- `Sokoban.bfs` proper: run from the seeded open list `[(start, None)]`. -/
def Sokoban.bfs (p : Sokoban) (fuel : Nat) : Option (List SokobanState) :=
  (p.bfsAux fuel [(p.state, none)] []).map Prod.fst

/-- `Sokoban.dfs`, fuel-indexed: `open.pop()` removes the rightmost pair and
children are appended on the right (LIFO). -/
def Sokoban.dfsAux (p : Sokoban) :
    Nat → List StatePair → List StatePair →
      Option (List SokobanState × List StatePair)
  | 0, _, _ => none
  | fuel + 1, opn, closed =>
      match opn.getLast? with
      | none => some ([], closed)
      | some pr =>
          let rest := opn.dropLast
          if p.goal_test pr.1 then some (reconstruct_path pr closed, closed)
          else p.dfsAux fuel
            (rest ++
              make_pairs (remove_seen (move_gen pr.1) rest (closed ++ [pr])) pr.1)
            (closed ++ [pr])

/-- `Sokoban.dfs` proper: run from the seeded open list `[(start, None)]`. -/
def Sokoban.dfs (p : Sokoban) (fuel : Nat) : Option (List SokobanState) :=
  (p.dfsAux fuel [(p.state, none)] []).map Prod.fst

theorem dfsAux_concat (p : Sokoban) (fuel : Nat) (rest : List StatePair)
    (pr : StatePair) (closed : List StatePair) :
    p.dfsAux (fuel + 1) (rest ++ [pr]) closed =
      if p.goal_test pr.1 then some (reconstruct_path pr closed, closed)
      else p.dfsAux fuel
        (rest ++ make_pairs (remove_seen (move_gen pr.1) rest (closed ++ [pr])) pr.1)
        (closed ++ [pr]) := by
  simp only [Sokoban.dfsAux, List.getLast?_concat, List.dropLast_concat]

theorem reconstructAux_extends :
    ∀ (fuel : Nat) (po : Option SokobanState) (closed : List StatePair)
      (acc : List SokobanState),
      ∃ t, reconstructAux fuel po closed acc = acc ++ t := by
  intro fuel
  induction fuel with
  | zero =>
    intro po closed acc
    cases po with
    | none => exact ⟨[], by simp [reconstructAux]⟩
    | some parent => exact ⟨[], by simp [reconstructAux]⟩
  | succ n ih =>
    intro po closed acc
    cases po with
    | none => exact ⟨[], by simp [reconstructAux]⟩
    | some parent =>
      obtain ⟨t, ht⟩ := ih (find_link parent closed).2 closed (acc ++ [parent])
      refine ⟨parent :: t, ?_⟩
      simp only [reconstructAux]
      rw [ht]
      simp

theorem reconstruct_path_getLast (node_pair : StatePair)
    (closed : List StatePair) :
    (reconstruct_path node_pair closed).getLast? = some node_pair.1 := by
  obtain ⟨t, ht⟩ := reconstructAux_extends (closed.length + 1) node_pair.2
    closed [node_pair.1]
  unfold reconstruct_path
  rw [ht, List.getLast?_reverse]
  rfl

theorem reconstruct_path_ne_nil (node_pair : StatePair)
    (closed : List StatePair) : reconstruct_path node_pair closed ≠ [] := by
  obtain ⟨t, ht⟩ := reconstructAux_extends (closed.length + 1) node_pair.2
    closed [node_pair.1]
  unfold reconstruct_path
  rw [ht]
  simp

theorem bfsAux_empty_closed (p : Sokoban) :
    ∀ (fuel : Nat) (opn closed cl : List StatePair),
      (∀ pr ∈ closed, p.goal_test pr.1 = false) →
      p.bfsAux fuel opn closed = some ([], cl) →
      ∀ pr ∈ cl, p.goal_test pr.1 = false := by
  intro fuel
  induction fuel with
  | zero => intro opn closed cl _ h; simp [Sokoban.bfsAux] at h
  | succ n ih =>
    intro opn closed cl hclosed h
    cases opn with
    | nil =>
      simp only [Sokoban.bfsAux, Option.some.injEq, Prod.mk.injEq] at h
      rw [← h.2]
      exact hclosed
    | cons pr rest =>
      by_cases hg : p.goal_test pr.1 = true
      · simp only [Sokoban.bfsAux, if_pos hg, Option.some.injEq, Prod.mk.injEq] at h
        exact absurd h.1 (reconstruct_path_ne_nil pr closed)
      · simp only [Sokoban.bfsAux, if_neg hg] at h
        refine ih _ _ _ ?_ h
        intro q hq
        rcases List.mem_append.mp hq with hq | hq
        · exact hclosed q hq
        · rw [List.mem_singleton.mp hq]
          simpa using hg

theorem bfsAux_nonempty_goal (p : Sokoban) :
    ∀ (fuel : Nat) (opn closed : List StatePair) (path : List SokobanState)
      (cl : List StatePair),
      p.bfsAux fuel opn closed = some (path, cl) → path ≠ [] →
      ∃ g, path.getLast? = some g ∧ p.goal_test g = true := by
  intro fuel
  induction fuel with
  | zero => intro opn closed path cl h _; simp [Sokoban.bfsAux] at h
  | succ n ih =>
    intro opn closed path cl h hne
    cases opn with
    | nil =>
      simp only [Sokoban.bfsAux, Option.some.injEq, Prod.mk.injEq] at h
      exact absurd h.1.symm hne
    | cons pr rest =>
      by_cases hg : p.goal_test pr.1 = true
      · simp only [Sokoban.bfsAux, if_pos hg, Option.some.injEq, Prod.mk.injEq] at h
        refine ⟨pr.1, ?_, hg⟩
        rw [← h.1]
        exact reconstruct_path_getLast pr closed
      · simp only [Sokoban.bfsAux, if_neg hg] at h
        exact ih _ _ _ _ h hne

theorem bfsAux_start_goal (p : Sokoban) (fuel : Nat)
    (h : p.goal_test p.state = true) :
    p.bfsAux (fuel + 1) [(p.state, none)] [] = some ([p.state], []) := by
  simp [Sokoban.bfsAux, h, reconstruct_path, reconstructAux]

theorem dfsAux_empty_closed (p : Sokoban) :
    ∀ (fuel : Nat) (opn closed cl : List StatePair),
      (∀ pr ∈ closed, p.goal_test pr.1 = false) →
      p.dfsAux fuel opn closed = some ([], cl) →
      ∀ pr ∈ cl, p.goal_test pr.1 = false := by
  intro fuel
  induction fuel with
  | zero => intro opn closed cl _ h; simp [Sokoban.dfsAux] at h
  | succ n ih =>
    intro opn closed cl hclosed h
    rcases List.eq_nil_or_concat opn with hopn | ⟨rest, pr, hopn⟩
    · subst hopn
      simp only [Sokoban.dfsAux, List.getLast?_nil, Option.some.injEq,
        Prod.mk.injEq] at h
      rw [← h.2]
      exact hclosed
    · subst hopn
      rw [List.concat_eq_append, dfsAux_concat] at h
      by_cases hg : p.goal_test pr.1 = true
      · rw [if_pos hg] at h
        simp only [Option.some.injEq, Prod.mk.injEq] at h
        exact absurd h.1 (reconstruct_path_ne_nil pr closed)
      · rw [if_neg hg] at h
        refine ih _ _ _ ?_ h
        intro q hq
        rcases List.mem_append.mp hq with hq | hq
        · exact hclosed q hq
        · rw [List.mem_singleton.mp hq]
          simpa using hg

theorem dfsAux_nonempty_goal (p : Sokoban) :
    ∀ (fuel : Nat) (opn closed : List StatePair) (path : List SokobanState)
      (cl : List StatePair),
      p.dfsAux fuel opn closed = some (path, cl) → path ≠ [] →
      ∃ g, path.getLast? = some g ∧ p.goal_test g = true := by
  intro fuel
  induction fuel with
  | zero => intro opn closed path cl h _; simp [Sokoban.dfsAux] at h
  | succ n ih =>
    intro opn closed path cl h hne
    rcases List.eq_nil_or_concat opn with hopn | ⟨rest, pr, hopn⟩
    · subst hopn
      simp only [Sokoban.dfsAux, List.getLast?_nil, Option.some.injEq,
        Prod.mk.injEq] at h
      exact absurd h.1.symm hne
    · subst hopn
      rw [List.concat_eq_append, dfsAux_concat] at h
      by_cases hg : p.goal_test pr.1 = true
      · rw [if_pos hg] at h
        simp only [Option.some.injEq, Prod.mk.injEq] at h
        refine ⟨pr.1, ?_, hg⟩
        rw [← h.1]
        exact reconstruct_path_getLast pr closed
      · rw [if_neg hg] at h
        exact ih _ _ _ _ h hne

theorem dfsAux_start_goal (p : Sokoban) (fuel : Nat)
    (h : p.goal_test p.state = true) :
    p.dfsAux (fuel + 1) [(p.state, none)] [] = some ([p.state], []) := by
  have : ([(p.state, (none : Option SokobanState))]) =
      [] ++ [((p.state, none) : StatePair)] := rfl
  rw [this, dfsAux_concat, if_pos h]
  simp [reconstruct_path, reconstructAux]

/-- C5: `bfs` and `dfs` return the empty path exactly when the open list is
exhausted with every dequeued (expanded) node failing the goal test — a
non-empty path always ends in a goal-passing state — and when the start state
already passes the goal test they return the single-element path `[start]`
with an empty closed list, i.e. zero expansions. -/
theorem search_failure_and_trivial_success (p : Sokoban) :
    (∀ fuel cl, p.bfsAux fuel [(p.state, none)] [] = some ([], cl) →
      ∀ pr ∈ cl, p.goal_test pr.1 = false) ∧
    (∀ fuel path cl, p.bfsAux fuel [(p.state, none)] [] = some (path, cl) →
      path ≠ [] → ∃ g, path.getLast? = some g ∧ p.goal_test g = true) ∧
    (p.goal_test p.state = true → ∀ fuel,
      p.bfsAux (fuel + 1) [(p.state, none)] [] = some ([p.state], [])) ∧
    (∀ fuel cl, p.dfsAux fuel [(p.state, none)] [] = some ([], cl) →
      ∀ pr ∈ cl, p.goal_test pr.1 = false) ∧
    (∀ fuel path cl, p.dfsAux fuel [(p.state, none)] [] = some (path, cl) →
      path ≠ [] → ∃ g, path.getLast? = some g ∧ p.goal_test g = true) ∧
    (p.goal_test p.state = true → ∀ fuel,
      p.dfsAux (fuel + 1) [(p.state, none)] [] = some ([p.state], [])) := by
  refine ⟨?_, ?_, ?_, ?_, ?_, ?_⟩
  · intro fuel cl h
    exact bfsAux_empty_closed p fuel _ _ _ (by simp) h
  · intro fuel path cl h hne
    exact bfsAux_nonempty_goal p fuel _ _ _ _ h hne
  · intro h fuel
    exact bfsAux_start_goal p fuel h
  · intro fuel cl h
    exact dfsAux_empty_closed p fuel _ _ _ (by simp) h
  · intro fuel path cl h hne
    exact dfsAux_nonempty_goal p fuel _ _ _ _ h hne
  · intro h fuel
    exact dfsAux_start_goal p fuel h

/-- C8 counterexample: with a parent that is absent from the closed list,
`find_link` returns the silent fallback `(node, None)` and
`reconstruct_path` returns a truncated two-element path (it never reaches the
root pair that is actually in closed), with no error signalled. -/
theorem find_link_silent_fallback :
    find_link (SokobanState.mk [[Occupant.EMPTY]] (1, 0))
        [(SokobanState.mk [[Occupant.EMPTY]] (0, 0), none)] =
      (SokobanState.mk [[Occupant.EMPTY]] (1, 0), none) ∧
    reconstruct_path
        (SokobanState.mk [[Occupant.EMPTY]] (2, 0),
          some (SokobanState.mk [[Occupant.EMPTY]] (1, 0)))
        [(SokobanState.mk [[Occupant.EMPTY]] (0, 0), none)] =
      [SokobanState.mk [[Occupant.EMPTY]] (1, 0),
        SokobanState.mk [[Occupant.EMPTY]] (2, 0)] := by
  constructor <;> decide

/-- C8 (amended): when no closed pair carries the looked-up state,
`find_link` silently returns the fallback pair `(node, None)`, which
terminates the parent chain and yields a truncated path. -/
theorem find_link_miss_fallback (node : SokobanState)
    (closed : List StatePair) (h : ∀ pr ∈ closed, pr.1 ≠ node) :
    find_link node closed = (node, none) := by
  induction closed with
  | nil => rfl
  | cons pr rest ih =>
    simp only [find_link]
    rw [if_neg (h pr (List.mem_cons_self pr rest))]
    exact ih (fun q hq => h q (List.mem_cons_of_mem _ hq))

/-- C8 amended-claim witness at a concrete miss. -/
theorem find_link_miss_fallback_witness :
    find_link (SokobanState.mk [[Occupant.EMPTY]] (1, 0))
        [(SokobanState.mk [[Occupant.EMPTY]] (0, 0), none)] =
      (SokobanState.mk [[Occupant.EMPTY]] (1, 0), none) :=
  find_link_miss_fallback _ _ (by decide)

-- ### Invariants of the closed list and path reconstruction

/-- Invariant of the closed list: entry `i` is either the root pair (its state
is the start state, depth 0), or its parent occurs strictly earlier in the
list, the entry is one `move_gen` step from the parent, and its depth is the
parent depth plus one. -/
def ClosedOk (s0 : SokobanState) (dpt : SokobanState → Nat)
    (C : List StatePair) : Prop :=
  ∀ i : Fin C.length,
    ((C.get i).2 = none → (C.get i).1 = s0 ∧ dpt (C.get i).1 = 0) ∧
    (∀ q, (C.get i).2 = some q →
      ∃ j : Fin C.length, (j : Nat) < (i : Nat) ∧ (C.get j).1 = q ∧
        (C.get i).1 ∈ move_gen q ∧ dpt (C.get i).1 = dpt q + 1)

/-- Invariant of an open pair relative to the closed list. -/
def PairOk (s0 : SokobanState) (dpt : SokobanState → Nat)
    (C : List StatePair) (pr : StatePair) : Prop :=
  (pr.2 = none → pr.1 = s0 ∧ dpt pr.1 = 0) ∧
  (∀ q, pr.2 = some q → q ∈ statesOf C ∧ pr.1 ∈ move_gen q ∧
    dpt pr.1 = dpt q + 1)

theorem exists_fin_of_mem_statesOf (C : List StatePair) (q : SokobanState)
    (h : q ∈ statesOf C) : ∃ j : Fin C.length, (C.get j).1 = q := by
  rw [statesOf, List.mem_map] at h
  obtain ⟨pr, hpr, he⟩ := h
  obtain ⟨j, hj⟩ := List.mem_iff_get.mp hpr
  exact ⟨j, by rw [hj]; exact he⟩

theorem get_mem_statesOf (C : List StatePair) (j : Fin C.length) :
    (C.get j).1 ∈ statesOf C :=
  List.mem_map_of_mem Prod.fst (List.get_mem C j.1 j.2)

theorem closed_states_inj (C : List StatePair) (hN : (statesOf C).Nodup)
    {i j : Fin C.length} (h : (C.get i).1 = (C.get j).1) :
    (i : Nat) = (j : Nat) := by
  have hlen : (statesOf C).length = C.length := by simp [statesOf]
  have key : ∀ k : Fin C.length,
      (statesOf C).get (Fin.cast hlen.symm k) = (C.get k).1 := by
    intro k
    simp [statesOf]
  have heq : (statesOf C).get (Fin.cast hlen.symm i) =
      (statesOf C).get (Fin.cast hlen.symm j) := by
    rw [key i, key j]
    exact h
  have h2 := hN.get_inj_iff.mp heq
  simpa [Fin.ext_iff] using h2

theorem find_link_get (C : List StatePair) (hN : (statesOf C).Nodup) :
    ∀ j : Fin C.length, find_link (C.get j).1 C = C.get j := by
  induction C with
  | nil => intro j; exact absurd j.2 (by simp)
  | cons pr rest ih =>
    intro j
    have hnm : pr.1 ∉ statesOf rest := by
      have : statesOf (pr :: rest) = pr.1 :: statesOf rest := rfl
      rw [this] at hN
      exact (List.nodup_cons.mp hN).1
    rcases Fin.eq_zero_or_eq_succ j with hj | ⟨k, hj⟩
    · subst hj
      simp [find_link]
    · subst hj
      have hget : ((pr :: rest).get k.succ) = rest.get k := rfl
      rw [hget]
      have hne : pr.1 ≠ (rest.get k).1 := by
        intro he
        exact hnm (he ▸ get_mem_statesOf rest k)
      simp only [find_link]
      rw [if_neg hne]
      have hNr : (statesOf rest).Nodup := by
        have : statesOf (pr :: rest) = pr.1 :: statesOf rest := rfl
        rw [this] at hN
        exact (List.nodup_cons.mp hN).2
      exact ih hNr k

theorem reconstructAux_none (fuel : Nat) (closed : List StatePair)
    (acc : List SokobanState) : reconstructAux fuel none closed acc = acc := by
  cases fuel <;> rfl

theorem reconstructAux_some (f : Nat) (parent : SokobanState)
    (closed : List StatePair) (acc : List SokobanState) :
    reconstructAux (f + 1) (some parent) closed acc =
      reconstructAux f (find_link parent closed).2 closed (acc ++ [parent]) :=
  rfl

theorem reconstructAux_spec (s0 : SokobanState) (dpt : SokobanState → Nat)
    (C : List StatePair) (hC : ClosedOk s0 dpt C) (hN : (statesOf C).Nodup) :
    ∀ (n : Nat) (po : Option SokobanState) (acc : List SokobanState)
      (fuel : Nat), n ≤ fuel →
      (∀ q, po = some q → ∃ j : Fin C.length, (j : Nat) < n ∧ (C.get j).1 = q) →
      ∃ tail, reconstructAux fuel po C acc = acc ++ tail ∧
        (po = none → tail = []) ∧
        (∀ q, po = some q →
          tail.head? = some q ∧ tail.getLast? = some s0 ∧ tail.Nodup ∧
          (∀ x ∈ tail, ∃ jx : Fin C.length, (jx : Nat) < n ∧ (C.get jx).1 = x) ∧
          tail.length = dpt q + 1 ∧
          List.Chain' (fun a b => a ∈ move_gen b) tail) := by
  intro n
  induction n using Nat.strong_induction_on with
  | _ n ih =>
    intro po acc fuel hfuel hpo
    cases po with
    | none =>
      exact ⟨[], by simp [reconstructAux_none], fun _ => rfl,
        fun q hq => absurd hq (by simp)⟩
    | some q =>
      obtain ⟨j, hjn, hjq⟩ := hpo q rfl
      cases fuel with
      | zero => omega
      | succ f =>
        have hfl : find_link q C = C.get j := by
          rw [← hjq]
          exact find_link_get C hN j
        cases hCj : (C.get j).2 with
        | none =>
          obtain ⟨hs0, hd0⟩ := (hC j).1 hCj
          refine ⟨[q], ?_, by simp, ?_⟩
          · rw [reconstructAux_some, hfl, hCj, reconstructAux_none]
          · intro q2 hq2
            cases hq2
            have hqs : q = s0 := by
              rw [← hjq]
              exact hs0
            have hdq : dpt q = 0 := by
              rw [← hjq]
              exact hd0
            refine ⟨rfl, by simp [hqs], by simp, ?_, by simp [hdq], by simp⟩
            intro x hx
            rw [List.mem_singleton.mp hx]
            exact ⟨j, hjn, hjq⟩
        | some q' =>
          obtain ⟨j', hj'j, hj'q, hmg, hdpt⟩ := (hC j).2 q' hCj
          obtain ⟨tail', ht', _, hprops⟩ :=
            ih j.1 hjn (some q') (acc ++ [q]) f (by omega)
              (fun q2 hq2 => by
                cases hq2
                exact ⟨j', hj'j, hj'q⟩)
          obtain ⟨hhd, hlast, hnd, hmem, hlen, hchain⟩ := hprops q' rfl
          refine ⟨q :: tail', ?_, by simp, ?_⟩
          · rw [reconstructAux_some, hfl, hCj, ht']
            simp
          · intro q2 hq2
            cases hq2
            have hq_notin : q ∉ tail' := by
              intro hmemq
              obtain ⟨jx, hjx, hjxq⟩ := hmem q hmemq
              have := closed_states_inj C hN (hjxq.trans hjq.symm)
              omega
            cases tail' with
            | nil => simp at hhd
            | cons a t' =>
              have ha : a = q' := by simpa using hhd
              refine ⟨rfl, ?_, ?_, ?_, ?_, ?_⟩
              · rw [List.getLast?_cons_cons]
                exact hlast
              · exact List.nodup_cons.mpr ⟨hq_notin, hnd⟩
              · intro x hx
                rcases List.mem_cons.mp hx with hx | hx
                · exact ⟨j, hjn, hjq.trans hx.symm⟩
                · obtain ⟨jx, hjx, hjxq⟩ := hmem x hx
                  exact ⟨jx, by omega, hjxq⟩
              · have : (q :: a :: t').length = (a :: t').length + 1 := rfl
                rw [this, hlen]
                rw [← hjq]
                omega
              · rw [List.chain'_cons]
                refine ⟨?_, hchain⟩
                rw [ha, ← hjq]
                exact hmg

theorem reconstruct_path_spec (s0 : SokobanState) (dpt : SokobanState → Nat)
    (C : List StatePair) (hC : ClosedOk s0 dpt C) (hN : (statesOf C).Nodup)
    (pr : StatePair) (hpr : PairOk s0 dpt C pr) (hnm : pr.1 ∉ statesOf C) :
    (reconstruct_path pr C).head? = some s0 ∧
    (reconstruct_path pr C).getLast? = some pr.1 ∧
    (reconstruct_path pr C).Nodup ∧
    List.Chain' (fun a b => b ∈ move_gen a) (reconstruct_path pr C) ∧
    (reconstruct_path pr C).length = dpt pr.1 + 1 := by
  obtain ⟨tail, ht, hnone, hsome⟩ := reconstructAux_spec s0 dpt C hC hN
    C.length pr.2 [pr.1] (C.length + 1) (by omega)
    (fun q hq => by
      obtain ⟨hmem, _, _⟩ := hpr.2 q hq
      obtain ⟨j, hj⟩ := exists_fin_of_mem_statesOf C q hmem
      exact ⟨j, j.2, hj⟩)
  unfold reconstruct_path
  rw [ht]
  cases hpo : pr.2 with
  | none =>
    obtain ⟨hs0, hd0⟩ := hpr.1 hpo
    rw [hnone hpo]
    exact ⟨by simp [hs0], by simp, by simp, by simp, by simp [hd0]⟩
  | some q =>
    obtain ⟨hhd, hlast, hnd, hmem, hlen, hchain⟩ := hsome q hpo
    obtain ⟨hmemC, hmv, hdp⟩ := hpr.2 q hpo
    cases tail with
    | nil => simp at hhd
    | cons a t =>
      have ha : a = q := by simpa using hhd
      have hlist : ([pr.1] ++ a :: t) = pr.1 :: a :: t := rfl
      rw [hlist]
      have hnotin : pr.1 ∉ a :: t := by
        intro hmm
        obtain ⟨jx, _, hjxq⟩ := hmem pr.1 hmm
        exact hnm (hjxq ▸ get_mem_statesOf C jx)
      refine ⟨?_, ?_, ?_, ?_, ?_⟩
      · rw [List.head?_reverse]
        rw [List.getLast?_cons_cons]
        exact hlast
      · rw [List.getLast?_reverse]
        rfl
      · rw [List.nodup_reverse]
        exact List.nodup_cons.mpr ⟨hnotin, hnd⟩
      · rw [List.chain'_reverse, List.chain'_cons]
        refine ⟨?_, ?_⟩
        · show pr.1 ∈ move_gen a
          rw [ha]
          exact hmv
        · show List.Chain' (fun x y => x ∈ move_gen y) (a :: t)
          exact hchain
      · simp only [List.length_reverse, List.length_cons]
        rw [hdp]
        simpa using hlen

theorem statesOf_append (a b : List StatePair) :
    statesOf (a ++ b) = statesOf a ++ statesOf b := by
  simp [statesOf]

theorem statesOf_make_pairs (l : List SokobanState) (node : SokobanState) :
    statesOf (make_pairs l node) = l := by
  unfold statesOf make_pairs
  rw [List.map_map]
  have : (Prod.fst ∘ fun n : SokobanState => (n, some node)) = id := rfl
  rw [this, List.map_id]

theorem occurs_in_iff (l : List StatePair) (x : SokobanState) :
    occurs_in l x = true ↔ x ∈ statesOf l := by
  simp [occurs_in, statesOf]

theorem occurs_in_eq_false (l : List StatePair) (x : SokobanState) :
    occurs_in l x = false ↔ x ∉ statesOf l := by
  rw [← occurs_in_iff]
  cases occurs_in l x <;> simp

theorem mem_remove_seen (nl : List SokobanState) (opn closed : List StatePair)
    (x : SokobanState) :
    x ∈ remove_seen nl opn closed ↔
      x ∈ nl ∧ x ∉ statesOf opn ∧ x ∉ statesOf closed := by
  simp [remove_seen, List.mem_filter, occurs_in_eq_false]

theorem remove_seen_nodup (nl : List SokobanState) (opn closed : List StatePair)
    (h : nl.Nodup) : (remove_seen nl opn closed).Nodup :=
  h.filter _

theorem closedOk_congr (s0 : SokobanState) (dpt dpt' : SokobanState → Nat)
    (C : List StatePair) (hC : ClosedOk s0 dpt C)
    (h : ∀ x ∈ statesOf C, dpt' x = dpt x) : ClosedOk s0 dpt' C := by
  intro i
  obtain ⟨h1, h2⟩ := hC i
  constructor
  · intro hn
    obtain ⟨ha, hb⟩ := h1 hn
    refine ⟨ha, ?_⟩
    rw [h _ (get_mem_statesOf C i)]
    exact hb
  · intro q hq
    obtain ⟨j, hji, hjq, hmv, hd⟩ := h2 q hq
    refine ⟨j, hji, hjq, hmv, ?_⟩
    rw [h _ (get_mem_statesOf C i), h _ (hjq ▸ get_mem_statesOf C j)]
    exact hd

theorem pairOk_congr (s0 : SokobanState) (dpt dpt' : SokobanState → Nat)
    (C : List StatePair) (pr : StatePair) (hpr : PairOk s0 dpt C pr)
    (hpr1 : dpt' pr.1 = dpt pr.1) (h : ∀ x ∈ statesOf C, dpt' x = dpt x) :
    PairOk s0 dpt' C pr := by
  constructor
  · intro hn
    obtain ⟨ha, hb⟩ := hpr.1 hn
    exact ⟨ha, by rw [hpr1]; exact hb⟩
  · intro q hq
    obtain ⟨hmem, hmv, hd⟩ := hpr.2 q hq
    refine ⟨hmem, hmv, ?_⟩
    rw [hpr1, h _ hmem]
    exact hd

theorem pairOk_append (s0 : SokobanState) (dpt : SokobanState → Nat)
    (C ext : List StatePair) (pr : StatePair) (hpr : PairOk s0 dpt C pr) :
    PairOk s0 dpt (C ++ ext) pr := by
  refine ⟨hpr.1, ?_⟩
  intro q hq
  obtain ⟨hmem, hmv, hd⟩ := hpr.2 q hq
  refine ⟨?_, hmv, hd⟩
  rw [statesOf_append]
  exact List.mem_append_left _ hmem

theorem closedOk_append (s0 : SokobanState) (dpt : SokobanState → Nat)
    (C : List StatePair) (pr : StatePair) (hC : ClosedOk s0 dpt C)
    (hpr : PairOk s0 dpt C pr) : ClosedOk s0 dpt (C ++ [pr]) := by
  intro i
  have hlen : (C ++ [pr]).length = C.length + 1 := by simp
  by_cases hi : (i : Nat) < C.length
  · have hget : (C ++ [pr]).get i = C.get ⟨i, hi⟩ := by
      simp [List.get_eq_getElem, List.getElem_append_left hi]
    obtain ⟨h1, h2⟩ := hC ⟨i, hi⟩
    rw [hget]
    constructor
    · exact h1
    · intro q hq
      obtain ⟨j, hji, hjq, hmv, hd⟩ := h2 q hq
      refine ⟨⟨j, by omega⟩, hji, ?_, hmv, hd⟩
      have : (C ++ [pr]).get ⟨j, by omega⟩ = C.get j := by
        simp [List.get_eq_getElem, List.getElem_append_left j.2]
      rw [this]
      exact hjq
  · have hieq : (i : Nat) = C.length := by
      have := i.2
      omega
    have hget : (C ++ [pr]).get i = pr := by
      simp [List.get_eq_getElem]
      rw [List.getElem_append_right (by omega)]
      simp [hieq]
    rw [hget]
    constructor
    · exact hpr.1
    · intro q hq
      obtain ⟨hmem, hmv, hd⟩ := hpr.2 q hq
      obtain ⟨j, hjq⟩ := exists_fin_of_mem_statesOf C q hmem
      refine ⟨⟨j, by omega⟩, ?_, ?_, hmv, hd⟩
      · show (j : Nat) < (i : Nat)
        have := j.2
        omega
      have : (C ++ [pr]).get ⟨j, by omega⟩ = C.get j := by
        simp [List.get_eq_getElem, List.getElem_append_left j.2]
      rw [this]
      exact hjq

/-- Depth assignment after one expansion: freshly inserted children sit one
level below the expanded node; every previously seen state keeps its depth. -/
def bumpDpt (dpt : SokobanState → Nat) (pr : StatePair)
    (rest C : List StatePair) : SokobanState → Nat :=
  fun x => if x ∈ remove_seen (move_gen pr.1) rest (C ++ [pr])
    then dpt pr.1 + 1 else dpt x

theorem statesOf_step_eq (pr : StatePair) (rest C : List StatePair) :
    statesOf (C ++ pr :: rest) = statesOf (C ++ [pr]) ++ statesOf rest := by
  rw [statesOf_append, statesOf_append]
  have : statesOf (pr :: rest) = pr.1 :: statesOf rest := rfl
  rw [this]
  have : statesOf [pr] = [pr.1] := rfl
  rw [this]
  simp

theorem bumpDpt_old (dpt : SokobanState → Nat) (pr : StatePair)
    (rest C : List StatePair) (x : SokobanState)
    (hx : x ∈ statesOf (C ++ pr :: rest)) : bumpDpt dpt pr rest C x = dpt x := by
  unfold bumpDpt
  rw [if_neg]
  intro hc
  obtain ⟨_, hnr, hnc⟩ := (mem_remove_seen _ _ _ _).mp hc
  rw [statesOf_step_eq] at hx
  rcases List.mem_append.mp hx with h | h
  · exact hnc h
  · exact hnr h

theorem bumpDpt_child (dpt : SokobanState → Nat) (pr : StatePair)
    (rest C : List StatePair) (x : SokobanState)
    (hx : x ∈ remove_seen (move_gen pr.1) rest (C ++ [pr])) :
    bumpDpt dpt pr rest C x = dpt pr.1 + 1 := by
  unfold bumpDpt
  rw [if_pos hx]

theorem step_nodup (pr : StatePair) (rest C : List StatePair)
    (hnd : (statesOf (C ++ pr :: rest)).Nodup) :
    (statesOf ((C ++ [pr]) ++
      (rest ++ make_pairs (remove_seen (move_gen pr.1) rest (C ++ [pr])) pr.1))).Nodup := by
  have hshape : (C ++ [pr]) ++
      (rest ++ make_pairs (remove_seen (move_gen pr.1) rest (C ++ [pr])) pr.1) =
      (C ++ pr :: rest) ++
        make_pairs (remove_seen (move_gen pr.1) rest (C ++ [pr])) pr.1 := by
    simp
  rw [hshape, statesOf_append, statesOf_make_pairs, List.nodup_append]
  refine ⟨hnd, remove_seen_nodup _ _ _ (move_gen_spec pr.1).1, ?_⟩
  intro x hx hx2
  obtain ⟨_, hnr, hnc⟩ := (mem_remove_seen _ _ _ _).mp hx2
  rw [statesOf_step_eq] at hx
  rcases List.mem_append.mp hx with h | h
  · exact hnc h
  · exact hnr h

theorem searchInv_step (s0 : SokobanState) (dpt : SokobanState → Nat)
    (pr : StatePair) (rest C : List StatePair)
    (_hnd : (statesOf (C ++ pr :: rest)).Nodup)
    (hCok : ClosedOk s0 dpt C)
    (hprok : PairOk s0 dpt C pr)
    (hrok : ∀ x ∈ rest, PairOk s0 dpt C x) :
    ClosedOk s0 (bumpDpt dpt pr rest C) (C ++ [pr]) ∧
    (∀ x ∈ rest ++ make_pairs (remove_seen (move_gen pr.1) rest (C ++ [pr])) pr.1,
      PairOk s0 (bumpDpt dpt pr rest C) (C ++ [pr]) x) := by
  have hold : ∀ x ∈ statesOf (C ++ [pr]), bumpDpt dpt pr rest C x = dpt x := by
    intro x hx
    refine bumpDpt_old dpt pr rest C x ?_
    rw [statesOf_step_eq]
    exact List.mem_append_left _ hx
  have hrest : ∀ x ∈ statesOf rest, bumpDpt dpt pr rest C x = dpt x := by
    intro x hx
    refine bumpDpt_old dpt pr rest C x ?_
    rw [statesOf_step_eq]
    exact List.mem_append_right _ hx
  have hpr1 : bumpDpt dpt pr rest C pr.1 = dpt pr.1 := by
    refine hold pr.1 ?_
    rw [statesOf_append]
    refine List.mem_append_right _ ?_
    simp [statesOf]
  constructor
  · exact closedOk_congr s0 dpt _ (C ++ [pr])
      (closedOk_append s0 dpt C pr hCok hprok) hold
  · intro x hx
    rcases List.mem_append.mp hx with hx | hx
    · refine pairOk_congr s0 dpt _ (C ++ [pr]) x
        (pairOk_append s0 dpt C [pr] x (hrok x hx)) ?_ hold
      refine hrest x.1 ?_
      exact List.mem_map_of_mem Prod.fst hx
    · rw [make_pairs, List.mem_map] at hx
      obtain ⟨c, hc, hcx⟩ := hx
      rw [← hcx]
      constructor
      · intro hcon
        exact Option.noConfusion hcon
      · intro q hq
        have hq' : q = pr.1 := by
          have : (some pr.1 : Option SokobanState) = some q := hq
          exact (Option.some.injEq _ _ ▸ this).symm
        subst hq'
        refine ⟨?_, ?_, ?_⟩
        · rw [statesOf_append]
          refine List.mem_append_right _ ?_
          simp [statesOf]
        · exact ((mem_remove_seen _ _ _ _).mp hc).1
        · show bumpDpt dpt pr rest C c = bumpDpt dpt pr rest C pr.1 + 1
          rw [bumpDpt_child dpt pr rest C c hc, hpr1]

theorem dfsAux_sound (p : Sokoban) :
    ∀ (fuel : Nat) (opn C : List StatePair) (dpt : SokobanState → Nat),
      (statesOf (C ++ opn)).Nodup →
      ClosedOk p.state dpt C →
      (∀ pr ∈ opn, PairOk p.state dpt C pr) →
      ∀ path cl, p.dfsAux fuel opn C = some (path, cl) → path ≠ [] →
        path.head? = some p.state ∧
        (∃ g, path.getLast? = some g ∧ p.goal_test g = true) ∧
        path.Nodup ∧
        List.Chain' (fun a b => b ∈ move_gen a) path := by
  intro fuel
  induction fuel with
  | zero => intro opn C dpt _ _ _ path cl h _; simp [Sokoban.dfsAux] at h
  | succ n ih =>
    intro opn C dpt hnd hC hopen path cl h hne
    rcases List.eq_nil_or_concat opn with hopn | ⟨rest, pr, hopn⟩
    · subst hopn
      simp only [Sokoban.dfsAux, List.getLast?_nil, Option.some.injEq,
        Prod.mk.injEq] at h
      exact absurd h.1.symm hne
    · subst hopn
      rw [List.concat_eq_append] at hnd
      rw [List.concat_eq_append, dfsAux_concat] at h
      have hperm : (C ++ (rest ++ [pr])).Perm (C ++ pr :: rest) := by
        refine List.Perm.append_left C ?_
        exact List.perm_append_singleton pr rest
      have hnd' : (statesOf (C ++ pr :: rest)).Nodup := by
        have hp : (statesOf (C ++ (rest ++ [pr]))).Perm
            (statesOf (C ++ pr :: rest)) := by
          unfold statesOf
          exact hperm.map Prod.fst
        exact hp.nodup hnd
      have hNC : (statesOf C).Nodup := by
        rw [statesOf_append] at hnd
        exact hnd.of_append_left
      have hprok : PairOk p.state dpt C pr :=
        hopen pr (by simp)
      by_cases hg : p.goal_test pr.1 = true
      · rw [if_pos hg] at h
        simp only [Option.some.injEq, Prod.mk.injEq] at h
        have hnm : pr.1 ∉ statesOf C := by
          have hsplit : statesOf (C ++ pr :: rest) =
              statesOf C ++ (pr.1 :: statesOf rest) := by
            rw [statesOf_append]
            rfl
          rw [hsplit, List.nodup_append] at hnd'
          intro hmem
          exact hnd'.2.2 hmem (List.mem_cons_self _ _)
        obtain ⟨hh, hl, hndp, hch, _⟩ :=
          reconstruct_path_spec p.state dpt C hC hNC pr hprok hnm
        rw [← h.1]
        exact ⟨hh, ⟨pr.1, hl, hg⟩, hndp, hch⟩
      · rw [if_neg hg] at h
        obtain ⟨hC', hopen'⟩ := searchInv_step p.state dpt pr rest C hnd' hC
          hprok (fun x hx => hopen x (by simp [hx]))
        refine ih _ _ _ (step_nodup pr rest C hnd') hC' hopen' path cl h hne

/-- `Steps s n t`: `t` is reachable from `s` by exactly `n` `move_gen`
steps (the edge relation explored by the searches). -/
inductive Steps (s : SokobanState) : Nat → SokobanState → Prop where
  | refl : Steps s 0 s
  | tail {n : Nat} {t u : SokobanState} :
      Steps s n t → u ∈ move_gen t → Steps s (n + 1) u

/-- Any reachable state outside the closed set is reachable through a frontier
state at no greater distance (closed states only ever expand into
closed-or-open states). -/
theorem frontier_cut (p : Sokoban) (C opn : List StatePair)
    (hsucc : ∀ pr ∈ C, ∀ v ∈ move_gen pr.1,
      v ∈ statesOf C ∨ v ∈ statesOf opn)
    (hstart : p.state ∈ statesOf C ∨ p.state ∈ statesOf opn) :
    ∀ (n : Nat) (u : SokobanState), Steps p.state n u → u ∉ statesOf C →
      ∃ x ∈ statesOf opn, ∃ k ≤ n, Steps p.state k x := by
  intro n u hsteps
  induction hsteps with
  | refl =>
    intro hu
    exact ⟨p.state, hstart.resolve_left hu, 0, Nat.zero_le 0, Steps.refl⟩
  | tail hst hmv ih =>
    rename_i m t u2
    intro hu
    by_cases ht : t ∈ statesOf C
    · obtain ⟨j, hj⟩ := exists_fin_of_mem_statesOf C t ht
      rcases hsucc (C.get j) (List.get_mem C j.1 j.2) u2 (by rw [hj]; exact hmv)
        with h | h
      · exact absurd h hu
      · exact ⟨u2, h, m + 1, le_refl _, Steps.tail hst hmv⟩
    · obtain ⟨x, hx, k, hk, hks⟩ := ih ht
      exact ⟨x, hx, k, by omega, hks⟩

theorem bfsAux_minimal (p : Sokoban) :
    ∀ (fuel : Nat) (opn C : List StatePair) (dpt : SokobanState → Nat)
      (d : Nat),
      (statesOf (C ++ opn)).Nodup →
      ClosedOk p.state dpt C →
      (∀ pr ∈ opn, PairOk p.state dpt C pr) →
      (∃ A B, opn = A ++ B ∧ (∀ pr ∈ A, dpt pr.1 = d) ∧
        (∀ pr ∈ B, dpt pr.1 = d + 1)) →
      (∀ pr ∈ C, ∀ v ∈ move_gen pr.1, v ∈ statesOf C ∨ v ∈ statesOf opn) →
      (p.state ∈ statesOf C ∨ p.state ∈ statesOf opn) →
      (∀ x, (x ∈ statesOf C ∨ x ∈ statesOf opn) →
        ∀ n, Steps p.state n x → dpt x ≤ n) →
      (∀ pr ∈ C, p.goal_test pr.1 = false) →
      ∀ path cl, p.bfsAux fuel opn C = some (path, cl) → path ≠ [] →
        path.head? = some p.state ∧
        (∃ g, path.getLast? = some g ∧ p.goal_test g = true) ∧
        path.Nodup ∧
        List.Chain' (fun a b => b ∈ move_gen a) path ∧
        (∀ n t, Steps p.state n t → p.goal_test t = true →
          path.length - 1 ≤ n) := by
  intro fuel
  induction fuel with
  | zero =>
    intro opn C dpt d _ _ _ _ _ _ _ _ path cl h _
    simp [Sokoban.bfsAux] at h
  | succ f ih =>
    intro opn C dpt d hnd hC hopen hseg hsucc hstart hmin hCgoal path cl h hne
    cases opn with
    | nil =>
      simp only [Sokoban.bfsAux, Option.some.injEq, Prod.mk.injEq] at h
      exact absurd h.1.symm hne
    | cons pr rest =>
      have hNC : (statesOf C).Nodup := by
        rw [statesOf_append] at hnd
        exact hnd.of_append_left
      have hsplit : statesOf (C ++ pr :: rest) =
          statesOf C ++ (pr.1 :: statesOf rest) := by
        rw [statesOf_append]
        rfl
      have hnm : pr.1 ∉ statesOf C := by
        have hnd2 := hnd
        rw [hsplit, List.nodup_append] at hnd2
        intro hmem
        exact hnd2.2.2 hmem (List.mem_cons_self _ _)
      have hprok : PairOk p.state dpt C pr := hopen pr (List.mem_cons_self _ _)
      have hheadmin : ∀ pr2 ∈ pr :: rest, dpt pr.1 ≤ dpt pr2.1 := by
        obtain ⟨A, B, hAB, hA, hB⟩ := hseg
        cases A with
        | nil =>
          simp only [List.nil_append] at hAB
          intro pr2 hpr2
          have h1 : dpt pr.1 = d + 1 := hB pr (by rw [← hAB]; exact List.mem_cons_self _ _)
          have h2 : dpt pr2.1 = d + 1 := hB pr2 (by rw [← hAB]; exact hpr2)
          omega
        | cons a A' =>
          have hpra : pr = a ∧ rest = A' ++ B := by
            have : pr :: rest = a :: (A' ++ B) := by simpa using hAB
            exact ⟨by injection this, by injection this⟩
          obtain ⟨hpa, hrest⟩ := hpra
          have hdpr : dpt pr.1 = d := by
            rw [hpa]
            exact hA a (List.mem_cons_self _ _)
          intro pr2 hpr2
          rcases List.mem_cons.mp hpr2 with h2 | h2
          · rw [h2]
          · rw [hrest] at h2
            rcases List.mem_append.mp h2 with h2 | h2
            · rw [hdpr, hA pr2 (List.mem_cons_of_mem _ h2)]
            · rw [hdpr, hB pr2 h2]
              omega
      by_cases hg : p.goal_test pr.1 = true
      · simp only [Sokoban.bfsAux, if_pos hg, Option.some.injEq,
          Prod.mk.injEq] at h
        obtain ⟨hh, hl, hndp, hch, hlen⟩ :=
          reconstruct_path_spec p.state dpt C hC hNC pr hprok hnm
        rw [← h.1]
        refine ⟨hh, ⟨pr.1, hl, hg⟩, hndp, hch, ?_⟩
        intro n t hsteps hgoal
        have htC : t ∉ statesOf C := by
          intro hmem
          obtain ⟨j, hj⟩ := exists_fin_of_mem_statesOf C t hmem
          have := hCgoal (C.get j) (List.get_mem C j.1 j.2)
          rw [hj, hgoal] at this
          exact Bool.noConfusion this
        obtain ⟨x, hx, k, hk, hks⟩ :=
          frontier_cut p C (pr :: rest) hsucc hstart n t hsteps htC
        obtain ⟨prx, hprx, hprxe⟩ := List.mem_map.mp hx
        have h1 : dpt x ≤ k := hmin x (Or.inr hx) k hks
        have h2 : dpt pr.1 ≤ dpt x := by
          rw [← hprxe]
          exact hheadmin prx hprx
        rw [hlen]
        omega
      · simp only [Sokoban.bfsAux, if_neg hg] at h
        have hnd' : (statesOf (C ++ pr :: rest)).Nodup := hnd
        obtain ⟨hC', hopen'⟩ := searchInv_step p.state dpt pr rest C hnd' hC
          hprok (fun x hx => hopen x (List.mem_cons_of_mem _ hx))
        -- abbreviations
        have hchildmem : ∀ c, c ∈ remove_seen (move_gen pr.1) rest (C ++ [pr]) →
            c ∈ move_gen pr.1 ∧ c ∉ statesOf rest ∧ c ∉ statesOf C ∧ c ≠ pr.1 := by
          intro c hc
          obtain ⟨h1, h2, h3⟩ := (mem_remove_seen _ _ _ _).mp hc
          rw [statesOf_append] at h3
          refine ⟨h1, h2, fun hmem => h3 (List.mem_append_left _ hmem), ?_⟩
          intro hceq
          refine h3 (List.mem_append_right _ ?_)
          rw [hceq]
          exact List.mem_cons_self _ _
        have hstatesOf_opn' : ∀ x,
            x ∈ statesOf (rest ++
              make_pairs (remove_seen (move_gen pr.1) rest (C ++ [pr])) pr.1) ↔
            x ∈ statesOf rest ∨
              x ∈ remove_seen (move_gen pr.1) rest (C ++ [pr]) := by
          intro x
          rw [statesOf_append, statesOf_make_pairs, List.mem_append]
        have hstatesOf_C' : ∀ x, x ∈ statesOf (C ++ [pr]) ↔
            x ∈ statesOf C ∨ x = pr.1 := by
          intro x
          rw [statesOf_append]
          have : statesOf [pr] = [pr.1] := rfl
          rw [this, List.mem_append, List.mem_singleton]
        -- new frontier-closure
        have hsucc' : ∀ pr2 ∈ C ++ [pr], ∀ v ∈ move_gen pr2.1,
            v ∈ statesOf (C ++ [pr]) ∨
            v ∈ statesOf (rest ++
              make_pairs (remove_seen (move_gen pr.1) rest (C ++ [pr])) pr.1) := by
          intro pr2 hpr2 v hv
          rcases List.mem_append.mp hpr2 with hpr2 | hpr2
          · rcases hsucc pr2 hpr2 v hv with hcase | hcase
            · exact Or.inl ((hstatesOf_C' v).mpr (Or.inl hcase))
            · have hcase2 : v ∈ pr.1 :: statesOf rest := hcase
              rcases List.mem_cons.mp hcase2 with hcase3 | hcase3
              · exact Or.inl ((hstatesOf_C' v).mpr (Or.inr hcase3))
              · exact Or.inr ((hstatesOf_opn' v).mpr (Or.inl hcase3))
          · have hpr2e : pr2 = pr := List.mem_singleton.mp hpr2
            rw [hpr2e] at hv
            by_cases hvr : v ∈ statesOf rest
            · exact Or.inr ((hstatesOf_opn' v).mpr (Or.inl hvr))
            · by_cases hvc : v ∈ statesOf (C ++ [pr])
              · exact Or.inl hvc
              · refine Or.inr ((hstatesOf_opn' v).mpr (Or.inr ?_))
                exact (mem_remove_seen _ _ _ _).mpr ⟨hv, hvr, hvc⟩
        -- start membership
        have hstart' : p.state ∈ statesOf (C ++ [pr]) ∨
            p.state ∈ statesOf (rest ++
              make_pairs (remove_seen (move_gen pr.1) rest (C ++ [pr])) pr.1) := by
          rcases hstart with hcase | hcase
          · exact Or.inl ((hstatesOf_C' _).mpr (Or.inl hcase))
          · have : statesOf (pr :: rest) = pr.1 :: statesOf rest := rfl
            rw [this] at hcase
            rcases List.mem_cons.mp hcase with hcase | hcase
            · exact Or.inl ((hstatesOf_C' _).mpr (Or.inr hcase))
            · exact Or.inr ((hstatesOf_opn' _).mpr (Or.inl hcase))
        -- minimality for the new configuration
        have holddpt : ∀ x, (x ∈ statesOf C ∨ x ∈ statesOf (pr :: rest)) →
            bumpDpt dpt pr rest C x = dpt x := by
          intro x hx
          refine bumpDpt_old dpt pr rest C x ?_
          rw [statesOf_append]
          rcases hx with hx | hx
          · exact List.mem_append_left _ hx
          · exact List.mem_append_right _ hx
        have hmin' : ∀ x, (x ∈ statesOf (C ++ [pr]) ∨
            x ∈ statesOf (rest ++
              make_pairs (remove_seen (move_gen pr.1) rest (C ++ [pr])) pr.1)) →
            ∀ n, Steps p.state n x → bumpDpt dpt pr rest C x ≤ n := by
          intro x hx n hsteps
          have hxcases : (x ∈ statesOf C ∨ x ∈ statesOf (pr :: rest)) ∨
              x ∈ remove_seen (move_gen pr.1) rest (C ++ [pr]) := by
            rcases hx with hx | hx
            · rcases (hstatesOf_C' x).mp hx with hx | hx
              · exact Or.inl (Or.inl hx)
              · refine Or.inl (Or.inr ?_)
                have : statesOf (pr :: rest) = pr.1 :: statesOf rest := rfl
                rw [this, hx]
                exact List.mem_cons_self _ _
            · rcases (hstatesOf_opn' x).mp hx with hx | hx
              · refine Or.inl (Or.inr ?_)
                have : statesOf (pr :: rest) = pr.1 :: statesOf rest := rfl
                rw [this]
                exact List.mem_cons_of_mem _ hx
              · exact Or.inr hx
          rcases hxcases with hx2 | hx2
          · rw [holddpt x hx2]
            refine hmin x ?_ n hsteps
            rcases hx2 with hx2 | hx2
            · exact Or.inl hx2
            · exact Or.inr hx2
          · rw [bumpDpt_child dpt pr rest C x hx2]
            obtain ⟨hxmv, hxr, hxC, hxpr⟩ := hchildmem x hx2
            cases hsteps with
            | refl =>
              exfalso
              rcases hstart with hcase | hcase
              · exact hxC hcase
              · have : statesOf (pr :: rest) = pr.1 :: statesOf rest := rfl
                rw [this] at hcase
                rcases List.mem_cons.mp hcase with hcase | hcase
                · exact hxpr hcase
                · exact hxr hcase
            | tail hst hmv =>
              rename_i m t
              by_cases htC : t ∈ statesOf C
              · exfalso
                obtain ⟨j, hj⟩ := exists_fin_of_mem_statesOf C t htC
                rcases hsucc (C.get j) (List.get_mem C j.1 j.2) x
                    (by rw [hj]; exact hmv) with hcase | hcase
                · exact hxC hcase
                · have : statesOf (pr :: rest) = pr.1 :: statesOf rest := rfl
                  rw [this] at hcase
                  rcases List.mem_cons.mp hcase with hcase | hcase
                  · exact hxpr hcase
                  · exact hxr hcase
              · obtain ⟨y, hy, k, hk, hks⟩ :=
                  frontier_cut p C (pr :: rest) hsucc hstart m t hst htC
                obtain ⟨pry, hpry, hprye⟩ := List.mem_map.mp hy
                have h1 : dpt y ≤ k := hmin y (Or.inr hy) k hks
                have h2 : dpt pr.1 ≤ dpt y := by
                  rw [← hprye]
                  exact hheadmin pry hpry
                omega
        -- goal test on the new closed list
        have hCgoal' : ∀ pr2 ∈ C ++ [pr], p.goal_test pr2.1 = false := by
          intro pr2 hpr2
          rcases List.mem_append.mp hpr2 with hpr2 | hpr2
          · exact hCgoal pr2 hpr2
          · rw [List.mem_singleton.mp hpr2]
            simpa using hg
        -- the level structure
        have hseg' : ∃ A B,
            rest ++ make_pairs (remove_seen (move_gen pr.1) rest (C ++ [pr])) pr.1 =
              A ++ B ∧
            (∀ pr2 ∈ A, bumpDpt dpt pr rest C pr2.1 =
              (if dpt pr.1 = d then d else d + 1)) ∧
            (∀ pr2 ∈ B, bumpDpt dpt pr rest C pr2.1 =
              (if dpt pr.1 = d then d else d + 1) + 1) := by
          obtain ⟨A, B, hAB, hA, hB⟩ := hseg
          have hrestdpt : ∀ pr2 ∈ rest, bumpDpt dpt pr rest C pr2.1 = dpt pr2.1 := by
            intro pr2 hpr2
            refine holddpt pr2.1 (Or.inr ?_)
            have : statesOf (pr :: rest) = pr.1 :: statesOf rest := rfl
            rw [this]
            exact List.mem_cons_of_mem _ (List.mem_map_of_mem Prod.fst hpr2)
          have hchilddpt : ∀ pr2 ∈ make_pairs
              (remove_seen (move_gen pr.1) rest (C ++ [pr])) pr.1,
              bumpDpt dpt pr rest C pr2.1 = dpt pr.1 + 1 := by
            intro pr2 hpr2
            rw [make_pairs, List.mem_map] at hpr2
            obtain ⟨c, hc, hce⟩ := hpr2
            rw [← hce]
            exact bumpDpt_child dpt pr rest C c hc
          cases A with
          | nil =>
            simp only [List.nil_append] at hAB
            have hdpr : dpt pr.1 = d + 1 :=
              hB pr (by rw [← hAB]; exact List.mem_cons_self _ _)
            have hdne : ¬(dpt pr.1 = d) := by omega
            refine ⟨rest,
              make_pairs (remove_seen (move_gen pr.1) rest (C ++ [pr])) pr.1,
              rfl, ?_, ?_⟩
            · intro pr2 hpr2
              rw [if_neg hdne, hrestdpt pr2 hpr2]
              exact hB pr2 (by rw [← hAB]; exact List.mem_cons_of_mem _ hpr2)
            · intro pr2 hpr2
              rw [if_neg hdne, hchilddpt pr2 hpr2, hdpr]
          | cons a A' =>
            have hpra : pr = a ∧ rest = A' ++ B := by
              have : pr :: rest = a :: (A' ++ B) := by simpa using hAB
              exact ⟨by injection this, by injection this⟩
            obtain ⟨hpa, hrest⟩ := hpra
            have hdpr : dpt pr.1 = d := by
              rw [hpa]
              exact hA a (List.mem_cons_self _ _)
            refine ⟨A', B ++
              make_pairs (remove_seen (move_gen pr.1) rest (C ++ [pr])) pr.1,
              by rw [hrest, List.append_assoc], ?_, ?_⟩
            · intro pr2 hpr2
              rw [if_pos hdpr, hrestdpt pr2 (by rw [hrest]; exact List.mem_append_left _ hpr2)]
              exact hA pr2 (List.mem_cons_of_mem _ hpr2)
            · intro pr2 hpr2
              rcases List.mem_append.mp hpr2 with hpr2 | hpr2
              · rw [if_pos hdpr,
                  hrestdpt pr2 (by rw [hrest]; exact List.mem_append_right _ hpr2)]
                exact hB pr2 hpr2
              · rw [if_pos hdpr, hchilddpt pr2 hpr2, hdpr]
        exact ih _ _ _ _ (step_nodup pr rest C hnd') hC' hopen' hseg'
          hsucc' hstart' hmin' hCgoal' path cl h hne

theorem steps_cons (s b t : SokobanState) (hmv : b ∈ move_gen s) :
    ∀ n, Steps b n t → Steps s (n + 1) t := by
  intro n h
  induction h with
  | refl => exact Steps.tail Steps.refl hmv
  | tail _ hmv2 ih => exact Steps.tail ih hmv2

theorem chain_to_steps :
    ∀ (path : List SokobanState) (s t : SokobanState),
      path.head? = some s → path.getLast? = some t →
      List.Chain' (fun a b => b ∈ move_gen a) path →
      Steps s (path.length - 1) t := by
  intro path
  induction path with
  | nil => intro s t hh _ _; simp at hh
  | cons a rest ih =>
    intro s t hh hl hch
    have ha : a = s := by simpa using hh
    cases rest with
    | nil =>
      have ht : a = t := by simpa using hl
      rw [← ha, ← ht]
      exact Steps.refl
    | cons b rest' =>
      have hmv : b ∈ move_gen a := (List.chain'_cons.mp hch).1
      have hch' := (List.chain'_cons.mp hch).2
      have hlen : (a :: b :: rest').length - 1 = ((b :: rest').length - 1) + 1 := by
        simp
      rw [hlen, ← ha]
      refine steps_cons a b t hmv _ (ih b t rfl ?_ hch')
      rw [← hl]
      exact List.getLast?_cons_cons.symm

theorem moveChain_to_steps :
    ∀ (path : List SokobanState) (s t : SokobanState),
      path.head? = some s → path.getLast? = some t →
      List.Chain' (fun a b => ∃ dir, a.move dir = b) path →
      ∃ k ≤ path.length - 1, Steps s k t := by
  intro path
  induction path with
  | nil => intro s t hh _ _; simp at hh
  | cons a rest ih =>
    intro s t hh hl hch
    have ha : a = s := by simpa using hh
    cases rest with
    | nil =>
      have ht : a = t := by simpa using hl
      rw [← ha, ← ht]
      exact ⟨0, Nat.zero_le _, Steps.refl⟩
    | cons b rest' =>
      obtain ⟨dir, hdir⟩ := (List.chain'_cons.mp hch).1
      have hch' := (List.chain'_cons.mp hch).2
      obtain ⟨k, hk, hks⟩ := ih b t rfl
        (by rw [← hl]; exact List.getLast?_cons_cons.symm) hch'
      by_cases hab : b = a
      · subst hab
        refine ⟨k, ?_, ha ▸ hks⟩
        simp only [List.length_cons] at *
        omega
      · have hmv : b ∈ move_gen a := by
          have : a.move dir ≠ a := by
            rw [hdir]
            exact hab
          rw [← hdir]
          exact move_gen_complete a dir this
        refine ⟨k + 1, ?_, ?_⟩
        · simp only [List.length_cons] at *
          omega
        · rw [← ha]
          exact steps_cons a b t hmv k hks

theorem initial_closedOk (s0 : SokobanState) (dpt : SokobanState → Nat) :
    ClosedOk s0 dpt [] := by
  intro i
  exact absurd i.2 (by simp)

theorem initial_pairOk (s0 : SokobanState) :
    PairOk s0 (fun _ => 0) [] (s0, none) := by
  constructor
  · intro _
    exact ⟨rfl, rfl⟩
  · intro q hq
    exact Option.noConfusion hq

/-- C4: every non-empty path returned by `bfs` or `dfs` starts at the search
start state, ends at a state passing the goal test, contains no two
value-equal states, and consecutive states are joined by `move_gen` edges in
start-to-goal order. -/
theorem search_paths_well_formed (p : Sokoban) :
    (∀ fuel path cl, p.bfsAux fuel [(p.state, none)] [] = some (path, cl) →
      path ≠ [] → path.head? = some p.state ∧
        (∃ g, path.getLast? = some g ∧ p.goal_test g = true) ∧
        path.Nodup ∧ List.Chain' (fun a b => b ∈ move_gen a) path) ∧
    (∀ fuel path cl, p.dfsAux fuel [(p.state, none)] [] = some (path, cl) →
      path ≠ [] → path.head? = some p.state ∧
        (∃ g, path.getLast? = some g ∧ p.goal_test g = true) ∧
        path.Nodup ∧ List.Chain' (fun a b => b ∈ move_gen a) path) := by
  constructor
  · intro fuel path cl h hne
    obtain ⟨h1, h2, h3, h4, _⟩ := bfsAux_minimal p fuel [(p.state, none)] []
      (fun _ => 0) 0 (by simp [statesOf]) (initial_closedOk p.state _)
      (by
        intro pr hpr
        rw [List.mem_singleton.mp hpr]
        exact initial_pairOk p.state)
      ⟨[(p.state, none)], [], by simp, fun _ _ => rfl, by simp⟩
      (by simp [statesOf])
      (by
        right
        simp [statesOf])
      (fun x _ n _ => Nat.zero_le n)
      (by simp [statesOf])
      path cl h hne
    exact ⟨h1, h2, h3, h4⟩
  · intro fuel path cl h hne
    exact dfsAux_sound p fuel [(p.state, none)] [] (fun _ => 0)
      (by simp [statesOf]) (initial_closedOk p.state _)
      (by
        intro pr hpr
        rw [List.mem_singleton.mp hpr]
        exact initial_pairOk p.state)
      path cl h hne

/-- C3: when both searches return a (non-empty) path, the BFS path has at most
as many transitions as the DFS path, and the BFS path is minimal in
transition count among all `move` sequences leading from the start state to a
goal-passing state. -/
theorem bfs_shortest (p : Sokoban) (fb fd : Nat) (pb pd : List SokobanState)
    (clb cld : List StatePair)
    (hb : p.bfsAux fb [(p.state, none)] [] = some (pb, clb)) (hbne : pb ≠ [])
    (hd : p.dfsAux fd [(p.state, none)] [] = some (pd, cld)) (hdne : pd ≠ []) :
    pb.length - 1 ≤ pd.length - 1 ∧
    ∀ (path : List SokobanState), path.head? = some p.state →
      List.Chain' (fun a b => ∃ dir, a.move dir = b) path →
      (∃ g, path.getLast? = some g ∧ p.goal_test g = true) →
      pb.length - 1 ≤ path.length - 1 := by
  obtain ⟨hbh, ⟨gb, hbl, hbg⟩, hbnd, hbch, hbmin⟩ :=
    bfsAux_minimal p fb [(p.state, none)] [] (fun _ => 0) 0
      (by simp [statesOf]) (initial_closedOk p.state _)
      (by
        intro pr hpr
        rw [List.mem_singleton.mp hpr]
        exact initial_pairOk p.state)
      ⟨[(p.state, none)], [], by simp, fun _ _ => rfl, by simp⟩
      (by simp [statesOf])
      (by
        right
        simp [statesOf])
      (fun x _ n _ => Nat.zero_le n)
      (by simp [statesOf])
      pb clb hb hbne
  constructor
  · obtain ⟨hdh, ⟨gd, hdl, hdg⟩, _, hdch⟩ := dfsAux_sound p fd
      [(p.state, none)] [] (fun _ => 0)
      (by simp [statesOf]) (initial_closedOk p.state _)
      (by
        intro pr hpr
        rw [List.mem_singleton.mp hpr]
        exact initial_pairOk p.state)
      pd cld hd hdne
    have hsteps : Steps p.state (pd.length - 1) gd :=
      chain_to_steps pd p.state gd hdh hdl hdch
    exact hbmin (pd.length - 1) gd hsteps hdg
  · intro path hph hpch ⟨g, hpl, hpg⟩
    obtain ⟨k, hk, hks⟩ := moveChain_to_steps path p.state g hph hpl hpch
    have := hbmin k g hks hpg
    omega

/-- A 1-by-3 solvable puzzle: hero at the left, a box in the middle, the goal
on the right cell.  One move (RIGHT) pushes the box onto the goal. -/
def wS0 : SokobanState :=
  ⟨[[Occupant.EMPTY, Occupant.BLOCK, Occupant.EMPTY]], (0, 0)⟩

/-- The state after pushing the box right. -/
def wS1 : SokobanState :=
  ⟨[[Occupant.EMPTY, Occupant.EMPTY, Occupant.BLOCK]], (1, 0)⟩

/-- The solvable puzzle instance. -/
def wP : Sokoban := ⟨wS0, [(2, 0)]⟩

/-- An unsolvable instance: the box can only be pushed into a wall. -/
def wT : SokobanState :=
  ⟨[[Occupant.EMPTY, Occupant.BLOCK, Occupant.WALL]], (0, 0)⟩

/-- The unsolvable puzzle instance (goal under the wall cell). -/
def wQ : Sokoban := ⟨wT, [(2, 0)]⟩

/-- An already-solved instance: the box starts on the goal. -/
def wR : Sokoban := ⟨wS1, [(2, 0)]⟩

/-- C4 witness: the solvable 1-by-3 puzzle, where BFS returns the two-state
path from start to goal. -/
theorem search_paths_well_formed_witness :
    ([wS0, wS1] : List SokobanState).head? = some wP.state ∧
      ([wS0, wS1] : List SokobanState).Nodup := by
  have hb := (search_paths_well_formed wP).1 5 [wS0, wS1] [(wS0, none)]
    (by decide) (by decide)
  exact ⟨hb.1, hb.2.2.1⟩

/-- C3 witness: on the 1-by-3 puzzle both searches return the two-state path,
and the BFS transition count is bounded by the DFS transition count. -/
theorem bfs_shortest_witness :
    ([wS0, wS1] : List SokobanState).length - 1 ≤
      ([wS0, wS1] : List SokobanState).length - 1 :=
  (bfs_shortest wP 5 5 [wS0, wS1] [wS0, wS1] [(wS0, none)] [(wS0, none)]
    (by decide) (by decide) (by decide) (by decide)).1

/-- C5 witness: the unsolvable instance returns the empty path with every
expanded node failing the goal test, and the already-solved instance returns
the single-element path with zero expansions, for both searches. -/
theorem search_failure_and_trivial_success_witness :
    wQ.goal_test wT = false ∧
    wR.bfsAux 1 [(wR.state, none)] [] = some ([wR.state], []) ∧
    wR.dfsAux 1 [(wR.state, none)] [] = some ([wR.state], []) := by
  refine ⟨(search_failure_and_trivial_success wQ).1 3 [(wT, none)] (by decide)
    (wT, none) (by decide), ?_, ?_⟩
  · exact (search_failure_and_trivial_success wR).2.2.1 (by decide) 0
  · exact (search_failure_and_trivial_success wR).2.2.2.2.2 (by decide) 0

-- ### Heuristics (`heuristics.py`)

/-- `_manhattan`: `abs(x1 - x2) + abs(y1 - y2)`. -/
def _manhattan (a b : Position) : Int :=
  |a.1 - b.1| + |a.2 - b.2|

/-- Python `min(iterable, default=0)`: the minimum of the list, or `0` when
the list is empty. -/
def pymin (l : List Int) : Int :=
  match l with
  | [] => 0
  | x :: xs => xs.foldl min x

/-- Modelled from the spec: every heuristic calls `state.box_positions()`,
which no source file defines (`SokobanState` has only `is_legal_pos`,
`can_push_to` and `move`).  The spec describes the heuristics as aggregating
"for each box", so the missing method is modelled as the list of coordinates
`(x, y)` of all `BLOCK` cells of the grid, in row-major order. -/
def SokobanState.box_positions (s : SokobanState) : List Position :=
  (List.range s.grid.length).flatMap (fun y =>
    (List.range ((s.grid.getD y []).length)).filterMap (fun x =>
      if (s.grid.getD y []).getD x Occupant.EMPTY = Occupant.BLOCK
      then some ((x : Int), (y : Int)) else none))

/-- `min_manhattan`: sum over boxes of the distance to the closest goal. -/
def min_manhattan (goals : List Position) (s : SokobanState) : Int :=
  s.box_positions.foldl
    (fun h box => h + pymin (goals.map (fun g => _manhattan box g))) 0

/-- `sum_manhattan`: sum over boxes of the distances to every goal. -/
def sum_manhattan (goals : List Position) (s : SokobanState) : Int :=
  s.box_positions.foldl
    (fun h box => h + (goals.map (fun g => _manhattan box g)).sum) 0

/-- `sum_manhattan_hero`: `sum_manhattan` plus hero-to-box distances. -/
def sum_manhattan_hero (goals : List Position) (s : SokobanState) : Int :=
  s.box_positions.foldl
    (fun h box => h + (goals.map (fun g => _manhattan box g)).sum +
      _manhattan s.hero box) 0

/-- `min_manhattan_hero`: `min_manhattan` plus hero-to-box distances. -/
def min_manhattan_hero (goals : List Position) (s : SokobanState) : Int :=
  s.box_positions.foldl
    (fun h box => h + pymin (goals.map (fun g => _manhattan box g)) +
      _manhattan s.hero box) 0

/-- The penalty term: `sum(penalty for (j, i) in goals if grid[i][j] != BLOCK)`. -/
def goalPenaltyTerm (goals : List Position) (s : SokobanState)
    (penalty : Int) : Int :=
  ((goals.filter (fun g =>
    !(decide (cellAt s.grid g.1 g.2 = Occupant.BLOCK)))).map
      (fun _ => penalty)).sum

/-- `sum_manhattan_hero_penalty` (default `penalty = 5`). -/
def sum_manhattan_hero_penalty (goals : List Position) (s : SokobanState)
    (penalty : Int) : Int :=
  sum_manhattan_hero goals s + goalPenaltyTerm goals s penalty

/-- `min_manhattan_hero_penalty` (default `penalty = 5`). -/
def min_manhattan_hero_penalty (goals : List Position) (s : SokobanState)
    (penalty : Int) : Int :=
  min_manhattan_hero goals s + goalPenaltyTerm goals s penalty

/-- The AttributeError message raised by looking up `box_positions` on a
`SokobanState` instance. -/
def attrErrMsg : String :=
  "AttributeError: SokobanState object has no attribute box_positions"

/-- The `SokobanState` dataclass of sokoban.py defines only the fields
`grid`, `hero` and the methods `is_legal_pos`, `can_push_to`, `move`; there
is no `box_positions` method anywhere in the sources, so the attribute access
`state.box_positions` raises AttributeError.  We model the lookup as a
fallible operation that always fails. -/
def Raw.box_positions (_s : SokobanState) : Except String (List Position) :=
  Except.error attrErrMsg

/-- `min_manhattan` as written in heuristics.py: its first statement is
`boxes = state.box_positions()`. -/
def Raw.min_manhattan (goals : List Position) (s : SokobanState) :
    Except String Int := do
  let boxes ← Raw.box_positions s
  pure (boxes.foldl
    (fun h box => h + pymin (goals.map (fun g => _manhattan box g))) 0)

/-- `sum_manhattan` as written in heuristics.py. -/
def Raw.sum_manhattan (goals : List Position) (s : SokobanState) :
    Except String Int := do
  let boxes ← Raw.box_positions s
  pure (boxes.foldl
    (fun h box => h + (goals.map (fun g => _manhattan box g)).sum) 0)

/-- `sum_manhattan_hero` as written in heuristics.py. -/
def Raw.sum_manhattan_hero (goals : List Position) (s : SokobanState) :
    Except String Int := do
  let boxes ← Raw.box_positions s
  pure (boxes.foldl
    (fun h box => h + (goals.map (fun g => _manhattan box g)).sum +
      _manhattan s.hero box) 0)

/-- `min_manhattan_hero` as written in heuristics.py. -/
def Raw.min_manhattan_hero (goals : List Position) (s : SokobanState) :
    Except String Int := do
  let boxes ← Raw.box_positions s
  pure (boxes.foldl
    (fun h box => h + pymin (goals.map (fun g => _manhattan box g)) +
      _manhattan s.hero box) 0)

/-- `sum_manhattan_hero_penalty` as written in heuristics.py. -/
def Raw.sum_manhattan_hero_penalty (goals : List Position) (s : SokobanState)
    (penalty : Int) : Except String Int := do
  let boxes ← Raw.box_positions s
  pure (boxes.foldl
    (fun h box => h + (goals.map (fun g => _manhattan box g)).sum +
      _manhattan s.hero box) 0 + goalPenaltyTerm goals s penalty)

/-- `min_manhattan_hero_penalty` as written in heuristics.py. -/
def Raw.min_manhattan_hero_penalty (goals : List Position) (s : SokobanState)
    (penalty : Int) : Except String Int := do
  let boxes ← Raw.box_positions s
  pure (boxes.foldl
    (fun h box => h + pymin (goals.map (fun g => _manhattan box g)) +
      _manhattan s.hero box) 0 + goalPenaltyTerm goals s penalty)

/-- C9: every heuristic evaluator of heuristics.py starts by calling
`state.box_positions()`, a method `SokobanState` does not define, so every
invocation on any goal list and state fails with an AttributeError rather
than returning a value. -/
theorem heuristics_always_raise (goals : List Position) (s : SokobanState)
    (penalty : Int) :
    Raw.min_manhattan goals s = Except.error attrErrMsg ∧
    Raw.sum_manhattan goals s = Except.error attrErrMsg ∧
    Raw.sum_manhattan_hero goals s = Except.error attrErrMsg ∧
    Raw.min_manhattan_hero goals s = Except.error attrErrMsg ∧
    Raw.sum_manhattan_hero_penalty goals s penalty = Except.error attrErrMsg ∧
    Raw.min_manhattan_hero_penalty goals s penalty = Except.error attrErrMsg :=
  ⟨rfl, rfl, rfl, rfl, rfl, rfl⟩

theorem _manhattan_nonneg (a b : Position) : 0 ≤ _manhattan a b :=
  add_nonneg (abs_nonneg _) (abs_nonneg _)

theorem foldl_min_nonneg :
    ∀ (l : List Int) (init : Int), 0 ≤ init → (∀ x ∈ l, 0 ≤ x) →
      0 ≤ l.foldl min init := by
  intro l
  induction l with
  | nil => intro init h _; exact h
  | cons a t ih =>
    intro init hinit hall
    refine ih _ ?_ (fun x hx => hall x (List.mem_cons_of_mem _ hx))
    exact le_min hinit (hall a (List.mem_cons_self _ _))

theorem pymin_nonneg (l : List Int) (h : ∀ x ∈ l, 0 ≤ x) : 0 ≤ pymin l := by
  cases l with
  | nil => exact le_refl 0
  | cons x xs =>
    exact foldl_min_nonneg xs x (h x (List.mem_cons_self _ _))
      (fun y hy => h y (List.mem_cons_of_mem _ hy))

theorem foldl_add_nonneg {α : Type} (g : α → Int) :
    ∀ (l : List α) (init : Int), (∀ x ∈ l, 0 ≤ g x) → 0 ≤ init →
      0 ≤ l.foldl (fun h x => h + g x) init := by
  intro l
  induction l with
  | nil => intro init _ h; exact h
  | cons a t ih =>
    intro init hall hinit
    refine ih _ (fun x hx => hall x (List.mem_cons_of_mem _ hx)) ?_
    exact add_nonneg hinit (hall a (List.mem_cons_self _ _))

theorem foldl_add2_nonneg {α : Type} (g1 g2 : α → Int) :
    ∀ (l : List α) (init : Int), (∀ x ∈ l, 0 ≤ g1 x) →
      (∀ x ∈ l, 0 ≤ g2 x) → 0 ≤ init →
      0 ≤ l.foldl (fun h x => h + g1 x + g2 x) init := by
  intro l
  induction l with
  | nil => intro init _ _ h; exact h
  | cons a t ih =>
    intro init hall1 hall2 hinit
    refine ih _ (fun x hx => hall1 x (List.mem_cons_of_mem _ hx))
      (fun x hx => hall2 x (List.mem_cons_of_mem _ hx)) ?_
    exact add_nonneg (add_nonneg hinit (hall1 a (List.mem_cons_self _ _)))
      (hall2 a (List.mem_cons_self _ _))

theorem foldl_add_zero {α : Type} (g : α → Int) :
    ∀ (l : List α) (init : Int), (∀ x ∈ l, g x = 0) →
      l.foldl (fun h x => h + g x) init = init := by
  intro l
  induction l with
  | nil => intro init _; rfl
  | cons a t ih =>
    intro init hall
    have : init + g a = init := by rw [hall a (List.mem_cons_self _ _)]; ring
    simp only [List.foldl]
    rw [this]
    exact ih _ (fun x hx => hall x (List.mem_cons_of_mem _ hx))

theorem goalPenaltyTerm_nonneg (goals : List Position) (s : SokobanState) :
    0 ≤ goalPenaltyTerm goals s 5 := by
  refine List.sum_nonneg ?_
  intro x hx
  rw [List.mem_map] at hx
  obtain ⟨_, _, hxe⟩ := hx
  rw [← hxe]
  norm_num

theorem manhattan_sum_nonneg (goals : List Position) (box : Position) :
    0 ≤ (goals.map (fun g => _manhattan box g)).sum := by
  refine List.sum_nonneg ?_
  intro x hx
  rw [List.mem_map] at hx
  obtain ⟨gpos, _, hxe⟩ := hx
  rw [← hxe]
  exact _manhattan_nonneg _ _

theorem manhattan_min_nonneg (goals : List Position) (box : Position) :
    0 ≤ pymin (goals.map (fun g => _manhattan box g)) := by
  refine pymin_nonneg _ ?_
  intro x hx
  rw [List.mem_map] at hx
  obtain ⟨gpos, _, hxe⟩ := hx
  rw [← hxe]
  exact _manhattan_nonneg _ _

/-- C6 counterexample: on an empty goal list, the hero variants do not return
0 — with one box at `(0, 0)` and the hero at `(1, 0)` they return the
hero-to-box distance 1. -/
theorem hero_heuristic_empty_goals_counterexample :
    min_manhattan_hero []
        (SokobanState.mk [[Occupant.BLOCK, Occupant.EMPTY]] (1, 0)) = 1 ∧
    min_manhattan_hero []
        (SokobanState.mk [[Occupant.BLOCK, Occupant.EMPTY]] (1, 0)) ≠ 0 ∧
    sum_manhattan_hero_penalty []
        (SokobanState.mk [[Occupant.BLOCK, Occupant.EMPTY]] (1, 0)) 5 = 1 := by
  refine ⟨by decide, by decide, by decide⟩

/-- C6 (amended): each of the six heuristic evaluators of heuristics.py is
non-negative on every goal list and state (with the default penalty 5), and
the plain `min_manhattan` and `sum_manhattan` return 0 on an empty goal list
(the hero and penalty variants keep their hero-to-box distance terms, which
need not vanish). -/
theorem heuristics_nonneg (goals : List Position) (s : SokobanState) :
    0 ≤ min_manhattan goals s ∧ 0 ≤ sum_manhattan goals s ∧
    0 ≤ sum_manhattan_hero goals s ∧ 0 ≤ min_manhattan_hero goals s ∧
    0 ≤ sum_manhattan_hero_penalty goals s 5 ∧
    0 ≤ min_manhattan_hero_penalty goals s 5 ∧
    min_manhattan [] s = 0 ∧ sum_manhattan [] s = 0 := by
  have h1 : 0 ≤ min_manhattan goals s :=
    foldl_add_nonneg _ _ 0
      (fun box _ => manhattan_min_nonneg goals box) (le_refl 0)
  have h2 : 0 ≤ sum_manhattan goals s :=
    foldl_add_nonneg _ _ 0
      (fun box _ => manhattan_sum_nonneg goals box) (le_refl 0)
  have h3 : 0 ≤ sum_manhattan_hero goals s :=
    foldl_add2_nonneg _ _ _ 0
      (fun box _ => manhattan_sum_nonneg goals box)
      (fun box _ => _manhattan_nonneg s.hero box) (le_refl 0)
  have h4 : 0 ≤ min_manhattan_hero goals s :=
    foldl_add2_nonneg _ _ _ 0
      (fun box _ => manhattan_min_nonneg goals box)
      (fun box _ => _manhattan_nonneg s.hero box) (le_refl 0)
  refine ⟨h1, h2, h3, h4, ?_, ?_, ?_, ?_⟩
  · exact add_nonneg h3 (goalPenaltyTerm_nonneg goals s)
  · exact add_nonneg h4 (goalPenaltyTerm_nonneg goals s)
  · exact foldl_add_zero _ _ 0 (fun box _ => rfl)
  · exact foldl_add_zero _ _ 0 (fun box _ => rfl)

-- ### CLI surface (`main.py`) and best-first search

/-- Modelled from the spec: `sum_manhattan_hero_reward` is imported by
main.py but defined in no source file.  Per the spec (4.3), the reward
variant adjusts the hero heuristic by subtracting a fixed constant
(default 5) for each goal tile not currently occupied by a box. -/
def sum_manhattan_hero_reward (goals : List Position) (s : SokobanState)
    (penalty : Int) : Int :=
  sum_manhattan_hero goals s - goalPenaltyTerm goals s penalty

/-- Modelled from the spec: `min_manhattan_hero_reward`, the min-aggregation
reward variant (see `sum_manhattan_hero_reward`). -/
def min_manhattan_hero_reward (goals : List Position) (s : SokobanState)
    (penalty : Int) : Int :=
  min_manhattan_hero goals s - goalPenaltyTerm goals s penalty

/-- The `HEURISTICS` dict of main.py, in insertion order; the reward variants
are applied at their default `penalty = 5`. -/
def HEURISTICS : List (String × (List Position → SokobanState → Int)) :=
  [("min", min_manhattan),
   ("sum", sum_manhattan),
   ("sumhero", sum_manhattan_hero),
   ("minhero", min_manhattan_hero),
   ("sumhero-", fun goals s => sum_manhattan_hero_reward goals s 5),
   ("minhero-", fun goals s => min_manhattan_hero_reward goals s 5)]

/-- Index of the first minimal element of a list of scores (0 on an empty
list); this is the tie-by-insertion-order selection rule of the spec's
best-first frontier. -/
def argminIdx : List Int → Nat
  | [] => 0
  | [_] => 0
  | x :: y :: rest =>
      let j := argminIdx (y :: rest)
      if x ≤ (y :: rest).getD j 0 then 0 else j + 1

/-- Modelled from the spec: `Sokoban.best_fs` is invoked by main.py
(`sokoban.best_fs(h_fn)`) but defined in no source file.  Per the spec (4.4),
open is a priority structure ordered by ascending heuristic score with ties
broken by insertion order (the first-discovered minimum expands first), with
the same goal-test-on-pop, dedupe and path-reconstruction discipline as
bfs/dfs.  Fuel-indexed like the other searches. -/
def Sokoban.bestFsAux (p : Sokoban)
    (hf : List Position → SokobanState → Int) :
    Nat → List StatePair → List StatePair →
      Option (List SokobanState × List StatePair)
  | 0, _, _ => none
  | _ + 1, [], closed => some ([], closed)
  | fuel + 1, x :: xs, closed =>
      let i := argminIdx ((x :: xs).map (fun pr => hf p.goals pr.1))
      let pr := (x :: xs).getD i x
      let rest := (x :: xs).eraseIdx i
      if p.goal_test pr.1 then some (reconstruct_path pr closed, closed)
      else p.bestFsAux hf fuel
        (rest ++ make_pairs (remove_seen (move_gen pr.1) rest (closed ++ [pr])) pr.1)
        (closed ++ [pr])

/-- `Sokoban.best_fs` proper: run from the seeded open list. -/
def Sokoban.best_fs (p : Sokoban) (hf : List Position → SokobanState → Int)
    (fuel : Nat) : Option (List SokobanState) :=
  (p.bestFsAux hf fuel [(p.state, none)] []).map Prod.fst

theorem argminIdx_lt : ∀ (l : List Int), l ≠ [] → argminIdx l < l.length := by
  intro l
  induction l with
  | nil => intro h; exact absurd rfl h
  | cons x t ih =>
    intro _
    cases t with
    | nil => simp [argminIdx]
    | cons y rest =>
      simp only [argminIdx]
      by_cases hle : x ≤ (y :: rest).getD (argminIdx (y :: rest)) 0
      · rw [if_pos hle]
        simp
      · rw [if_neg hle]
        have := ih (by simp)
        simpa using this

theorem argminIdx_min : ∀ (l : List Int) (j : Nat), j < l.length →
    l.getD (argminIdx l) 0 ≤ l.getD j 0 := by
  intro l
  induction l with
  | nil => intro j hj; simp at hj
  | cons x t ih =>
    intro j hj
    cases t with
    | nil =>
      cases j with
      | zero => simp [argminIdx]
      | succ k => exact absurd hj (by simp)
    | cons y rest =>
      simp only [argminIdx]
      by_cases hle : x ≤ (y :: rest).getD (argminIdx (y :: rest)) 0
      · rw [if_pos hle]
        cases j with
        | zero => simp
        | succ k =>
          have hk : k < (y :: rest).length := by simpa using hj
          have := ih k hk
          simp only [List.getD_cons_zero, List.getD_cons_succ]
          exact le_trans hle this
      · rw [if_neg hle]
        push_neg at hle
        cases j with
        | zero =>
          simp only [List.getD_cons_zero, List.getD_cons_succ]
          exact le_of_lt hle
        | succ k =>
          have hk : k < (y :: rest).length := by simpa using hj
          simp only [List.getD_cons_succ]
          exact ih k hk

theorem argminIdx_first : ∀ (l : List Int) (j : Nat), j < argminIdx l →
    l.getD (argminIdx l) 0 < l.getD j 0 := by
  intro l
  induction l with
  | nil => intro j hj; simp [argminIdx] at hj
  | cons x t ih =>
    intro j hj
    cases t with
    | nil => simp [argminIdx] at hj
    | cons y rest =>
      simp only [argminIdx] at hj ⊢
      by_cases hle : x ≤ (y :: rest).getD (argminIdx (y :: rest)) 0
      · rw [if_pos hle] at hj
        exact absurd hj (by omega)
      · rw [if_neg hle] at hj ⊢
        push_neg at hle
        cases j with
        | zero =>
          simp only [List.getD_cons_zero, List.getD_cons_succ]
          exact hle
        | succ k =>
          have hk : k < argminIdx (y :: rest) := by omega
          simp only [List.getD_cons_succ]
          exact ih k hk

theorem bestFsAux_nonempty_goal (p : Sokoban)
    (hf : List Position → SokobanState → Int) :
    ∀ (fuel : Nat) (opn closed : List StatePair) (path : List SokobanState)
      (cl : List StatePair),
      p.bestFsAux hf fuel opn closed = some (path, cl) → path ≠ [] →
      ∃ g, path.getLast? = some g ∧ p.goal_test g = true := by
  intro fuel
  induction fuel with
  | zero => intro opn closed path cl h _; simp [Sokoban.bestFsAux] at h
  | succ n ih =>
    intro opn closed path cl h hne
    cases opn with
    | nil =>
      simp only [Sokoban.bestFsAux, Option.some.injEq, Prod.mk.injEq] at h
      exact absurd h.1.symm hne
    | cons x xs =>
      simp only [Sokoban.bestFsAux] at h
      by_cases hg : p.goal_test
          ((x :: xs).getD (argminIdx ((x :: xs).map (fun pr => hf p.goals pr.1))) x).1 = true
      · rw [if_pos hg] at h
        simp only [Option.some.injEq, Prod.mk.injEq] at h
        refine ⟨_, ?_, hg⟩
        rw [← h.1]
        exact reconstruct_path_getLast _ closed
      · rw [if_neg hg] at h
        exact ih _ _ _ _ h hne

/-- C7 (amended): the CLI exposes best-first search through the fixed
selector table `{min, sum, sumhero, minhero, sumhero-, minhero-}` — only the
reward variants appear, there are no penalty selectors — and the (spec
modelled) `best_fs` expands the open node with the lowest heuristic score,
breaking ties by insertion order (the first minimal score is selected), and
returns an ordered sequence ending in a goal state or the empty failure
signal. -/
theorem best_fs_surface (p : Sokoban)
    (hf : List Position → SokobanState → Int) :
    HEURISTICS.map Prod.fst =
      ["min", "sum", "sumhero", "minhero", "sumhero-", "minhero-"] ∧
    (∀ scores : List Int, scores ≠ [] →
      argminIdx scores < scores.length ∧
      (∀ j < scores.length,
        scores.getD (argminIdx scores) 0 ≤ scores.getD j 0) ∧
      (∀ j < argminIdx scores,
        scores.getD (argminIdx scores) 0 < scores.getD j 0)) ∧
    (∀ fuel path cl,
      p.bestFsAux hf fuel [(p.state, none)] [] = some (path, cl) →
      path = [] ∨ ∃ g, path.getLast? = some g ∧ p.goal_test g = true) := by
  refine ⟨rfl, ?_, ?_⟩
  · intro scores hne
    exact ⟨argminIdx_lt scores hne, fun j hj => argminIdx_min scores j hj,
      fun j hj => argminIdx_first scores j hj⟩
  · intro fuel path cl h
    by_cases hp : path = []
    · exact Or.inl hp
    · exact Or.inr (bestFsAux_nonempty_goal p hf fuel _ _ _ _ h hp)

/-- C7 counterexample: the selector set of main.py has exactly the six names
below — six entries, reward (`-`) variants only; the claim's additional
penalty (`+`) selectors for each aggregation do not exist. -/
theorem heuristics_selector_counterexample :
    (HEURISTICS.map Prod.fst).length = 6 ∧
    "minhero+" ∉ HEURISTICS.map Prod.fst ∧
    "sumhero+" ∉ HEURISTICS.map Prod.fst ∧
    "minhero-" ∈ HEURISTICS.map Prod.fst ∧
    "sumhero-" ∈ HEURISTICS.map Prod.fst := by
  refine ⟨rfl, by decide, by decide, by decide, by decide⟩

/-- C7 witness: the tie-breaking selection on a concrete score list and a
concrete best-first run reaching the goal. -/
theorem best_fs_surface_witness :
    argminIdx [(3 : Int), 1, 1, 2] = 1 ∧ wP.goal_test wS1 = true := by
  constructor
  · rfl
  · have h := (best_fs_surface wP min_manhattan).2.2 3 [wS0, wS1]
      [(wS0, none)] (by decide)
    rcases h with h | ⟨g, hg1, hg2⟩
    · exact absurd h (by decide)
    · have hgw : g = wS1 := by
        have : some wS1 = some g := by rw [← hg1]; rfl
        exact (Option.some.injEq _ _ ▸ this).symm
      rw [← hgw]
      exact hg2
